import Mathlib

/-!
Verification development for the Sciex invoice-extractor application
(`src/app.py`).  The Python source is shallowly embedded:

* the vendor regular expressions are embedded as abstract syntax trees
  (`RE`) together with a backtracking matcher (`mrun`, `searchAll`)
  implementing Python `re` semantics for the constructs the source uses
  (case-insensitive literals, character classes, greedy and lazy
  counted repetition of character classes, alternation with left
  priority, non-capturing optional groups, capture groups, DOTALL `.`,
  leftmost non-overlapping `findall`);
* the extractor functions `extract_mace_multi`, `extract_novanta`,
  `extract_cronologic` are translated line by line;
* the Streamlit processing block (validation gate, per-file loop,
  pandas column coercion / formatting / export) is translated into
  explicit state-passing functions, with Python exceptions modelled by
  `Except`.

Strings are processed as `List Char`; the source only ever handles
ASCII invoice text, so ASCII versions of `str.lower`, `str.strip`,
regex `\s`, `\d`, `[A-Za-z]` are used.
-/

namespace App

/-! ## Character helpers (ASCII fragment of the Python semantics) -/

/-- ASCII lower-casing, the fragment of `str.lower` / `re.IGNORECASE`
relevant to the source's ASCII patterns. -/
def lowerC (c : Char) : Char :=
  match c with
  | 'A' => 'a' | 'B' => 'b' | 'C' => 'c' | 'D' => 'd' | 'E' => 'e'
  | 'F' => 'f' | 'G' => 'g' | 'H' => 'h' | 'I' => 'i' | 'J' => 'j'
  | 'K' => 'k' | 'L' => 'l' | 'M' => 'm' | 'N' => 'n' | 'O' => 'o'
  | 'P' => 'p' | 'Q' => 'q' | 'R' => 'r' | 'S' => 's' | 'T' => 't'
  | 'U' => 'u' | 'V' => 'v' | 'W' => 'w' | 'X' => 'x' | 'Y' => 'y'
  | 'Z' => 'z' | c => c

/-- Regex `\d` (ASCII fragment). -/
def isDigitC (c : Char) : Bool := '0' ≤ c ∧ c ≤ '9'

/-- Regex `\s` and `str.strip` whitespace (ASCII fragment:
space, tab, newline, carriage return, form feed, vertical tab). -/
def isWsC (c : Char) : Bool :=
  c = ' ' ∨ c = '\t' ∨ c = '\n' ∨ c = '\r' ∨ c = '\x0b' ∨ c = '\x0c'

/-- Character class `[A-Za-z]`. -/
def isAlphaC (c : Char) : Bool :=
  ('A' ≤ c ∧ c ≤ 'Z') ∨ ('a' ≤ c ∧ c ≤ 'z')

/-- Character class `[\d,\.]` of the total-value captures. -/
def isAmtC (c : Char) : Bool := isDigitC c ∨ c = ',' ∨ c = '.'

/-- Character class `[:\-]`. -/
def isColonDashC (c : Char) : Bool := c = ':' ∨ c = '-'

/-- Character class `[-\s]` (Novanta `ABSCIEX[-\s]*S`, Cronologic `PO[-\s]?`). -/
def isDashWsC (c : Char) : Bool := c = '-' ∨ isWsC c

/-- Case-insensitive character comparison (`re.IGNORECASE`). -/
def eqI (a c : Char) : Bool := lowerC c = lowerC a

/-- `str.strip()` on a character list (ASCII whitespace). -/
def pyStrip (l : List Char) : List Char :=
  ((l.dropWhile isWsC).reverse.dropWhile isWsC).reverse

/-! ## Regular-expression ASTs

Only the constructs appearing in `app.py`'s patterns are represented.
All quantifiers in those patterns apply to single-character classes,
so repetition is a primitive over a character predicate and the
matcher is structurally recursive (total, no fuel). -/

/-- Regex abstract syntax for the source's patterns.
`manyG p lo hi` is greedy `p{lo,hi}` (`hi = none` for unbounded),
`manyL` the lazy version (used for `.*?` under `re.DOTALL`, where the
predicate is `fun _ => true`).  `alt` tries the left branch first
(Python priority), `grp n r` is capture group `n`. -/
inductive RE : Type where
  | eps : RE
  | cls (p : Char → Bool) : RE
  | seq (a b : RE) : RE
  | alt (a b : RE) : RE
  | manyG (p : Char → Bool) (lo : Nat) (hi : Option Nat) : RE
  | manyL (p : Char → Bool) (lo : Nat) (hi : Option Nat) : RE
  | grp (n : Nat) (r : RE) : RE

/-- Captured groups: association list from group number to captured text. -/
abbrev Caps := List (Nat × List Char)

/-- Length of the maximal run of characters satisfying `p`. -/
def countRun (p : Char → Bool) : List Char → Nat
  | [] => 0
  | c :: cs => if p c then countRun p cs + 1 else 0

/-- First success of `f` over a list of candidates (backtracking order). -/
def firstSome (f : Nat → Option α) : List Nat → Option α
  | [] => none
  | n :: ns => match f n with
      | some a => some a
      | none => firstSome f ns

/-- Candidate repetition counts for a greedy quantifier: maximal first. -/
def greedyLens (m lo : Nat) : List Nat :=
  (List.range (m + 1 - lo)).map (fun j => m - j)

/-- Candidate repetition counts for a lazy quantifier: minimal first. -/
def lazyLens (m lo : Nat) : List Nat :=
  (List.range (m + 1 - lo)).map (fun j => lo + j)

/-- Effective maximal repetition count: maximal run capped by `hi`. -/
def capRun (p : Char → Bool) (hi : Option Nat) (s : List Char) : Nat :=
  match hi with
  | none => countRun p s
  | some h => min (countRun p s) h

/-- Backtracking matcher in continuation-passing style, implementing
Python `re` semantics (with the priorities of greedy/lazy quantifiers
and of alternation) for the construct subset of `RE`.  `k` receives the
remaining input and the captures accumulated so far; the overall result
is the highest-priority match, as a pair (captures, remaining input). -/
def mrun (re : RE) (s : List Char) (caps : Caps)
    (k : List Char → Caps → Option (Caps × List Char)) :
    Option (Caps × List Char) :=
  match re with
  | .eps => k s caps
  | .cls p =>
      match s with
      | [] => none
      | c :: cs => if p c then k cs caps else none
  | .seq a b => mrun a s caps (fun s' caps' => mrun b s' caps' k)
  | .alt a b =>
      match mrun a s caps k with
      | some r => some r
      | none => mrun b s caps k
  | .manyG p lo hi => firstSome (fun i => k (s.drop i) caps) (greedyLens (capRun p hi s) lo)
  | .manyL p lo hi => firstSome (fun i => k (s.drop i) caps) (lazyLens (capRun p hi s) lo)
  | .grp n r =>
      mrun r s caps (fun s' caps' =>
        k s' ((n, s.take (s.length - s'.length)) :: caps'))

/-- Try to match `re` at the start of `s` (Python `re` match at a
position): highest-priority match with its captures and the rest. -/
def matchAt (re : RE) (s : List Char) : Option (Caps × List Char) :=
  mrun re s [] (fun s' caps => some (caps, s'))

/-- Fuel-indexed scan loop of `re.findall`: at each position try a
match; on success record its groups and continue after its end (or one
character further for an empty match), otherwise advance one
character.  Each step shortens the input, so `length + 1` fuel always
suffices (`searchAllF_congr`); the fuel only makes the recursion
structural. -/
def searchAllF (re : RE) : Nat → List Char → List Caps
  | 0, _ => []
  | _ + 1, [] =>
      (match matchAt re [] with
       | some (caps, _) => [caps]
       | none => [])
  | fuel + 1, c :: rest =>
      match matchAt re (c :: rest) with
      | some (caps, s') =>
          caps :: (if s'.length < (c :: rest).length then searchAllF re fuel s'
                   else searchAllF re fuel rest)
      | none => searchAllF re fuel rest

/-- `re.findall` semantics: scan for the leftmost match, record its
groups, continue after its end, repeat. -/
def searchAll (re : RE) (s : List Char) : List Caps :=
  searchAllF re (s.length + 1) s

/-- Captured text of group `n` (all the source's groups participate in
every successful match, so the default is never consulted there). -/
def capGet (caps : Caps) (n : Nat) : List Char :=
  match caps.lookup n with
  | some t => t
  | none => []

/-! ## The vendor patterns of `app.py`, transcribed construct by construct -/

/-- Case-insensitive literal character. -/
def litI (a : Char) : RE := .cls (eqI a)

/-- Case-insensitive literal string (a sequence of `litI`). -/
def strI (w : List Char) : RE :=
  w.foldr (fun c r => .seq (litI c) r) .eps

/-- Optional occurrence of a single character class (`X?`, greedy). -/
def optC (p : Char → Bool) : RE := .manyG p 0 (some 1)

/-- Greedy optional non-capturing group (`(?:...)?`). -/
def optG (r : RE) : RE := .alt r .eps

/-- `\s*` (greedy). -/
def wsStar : RE := .manyG isWsC 0 none

/-- `\s+` (greedy). -/
def wsPlus : RE := .manyG isWsC 1 none

/-- `\d+` (greedy). -/
def digPlus : RE := .manyG isDigitC 1 none

/-- `.*?` under `re.DOTALL`: lazy skip of arbitrary characters. -/
def dotStarL : RE := .manyL (fun _ => true) 0 none

/-- `\s*[:\-]?\s*`, the connector used after the anchor labels. -/
def sepOpt : RE := .seq wsStar (.seq (optC isColonDashC) wsStar)

/-- Mace pattern (`extract_mace_multi`), compiled with
`re.DOTALL | re.IGNORECASE`:
`P\.?O\.?\s*NO\.?\s*[:\-]?\s*(\d+).*?`
`(\d{1,2}\s+[A-Za-z]{3,9}\s+\d{4}).*?`
`(?:DDU\s+Singapore\s+)?(\d+).*?`
`(?:TOTAL\s+USD\s*[:\-]?\s*|\$)?([\d,\.]+)` -/
def maceRE : RE :=
  .seq (litI 'p') (.seq (optC (· = '.'))
  (.seq (litI 'o') (.seq (optC (· = '.'))
  (.seq wsStar (.seq (litI 'n') (.seq (litI 'o') (.seq (optC (· = '.'))
  (.seq sepOpt
  (.seq (.grp 1 digPlus)
  (.seq dotStarL
  (.seq (.grp 2 (.seq (.manyG isDigitC 1 (some 2))
                (.seq wsPlus (.seq (.manyG isAlphaC 3 (some 9))
                (.seq wsPlus (.manyG isDigitC 4 (some 4)))))))
  (.seq dotStarL
  (.seq (optG (.seq (litI 'd') (.seq (litI 'd') (.seq (litI 'u')
              (.seq wsPlus (.seq (strI "singapore".data) wsPlus))))))
  (.seq (.grp 3 digPlus)
  (.seq dotStarL
  (.seq (optG (.alt (.seq (strI "total".data)
                    (.seq wsPlus (.seq (strI "usd".data) sepOpt)))
              (.cls (· = '$'))))
        (.grp 4 (.manyG isAmtC 1 none))))))))))))))))))

/-- Novanta `Date\s*[:\-]?\s*(\d{2}/\d{2}/\d{4})`, `re.IGNORECASE`. -/
def novDateRE : RE :=
  .seq (strI "date".data) (.seq sepOpt
  (.grp 1 (.seq (.manyG isDigitC 2 (some 2)) (.seq (.cls (· = '/'))
           (.seq (.manyG isDigitC 2 (some 2)) (.seq (.cls (· = '/'))
           (.manyG isDigitC 4 (some 4))))))))

/-- Novanta `Invoice\s*(?:ID|No\.?)\s*[:\-]?\s*(\d+)`, `re.IGNORECASE`. -/
def novInvRE : RE :=
  .seq (strI "invoice".data) (.seq wsStar
  (.seq (.alt (strI "id".data) (.seq (strI "no".data) (optC (· = '.'))))
  (.seq sepOpt (.grp 1 digPlus))))

/-- Novanta `ABSCIEX[-\s]*S\s*(\d+)`, `re.IGNORECASE`. -/
def novPoRE : RE :=
  .seq (strI "absciex".data) (.seq (.manyG isDashWsC 0 none)
  (.seq (litI 's') (.seq wsStar (.grp 1 digPlus))))

/-- Novanta `TOTAL\s+(?:AMOUNT\s+DUE|USD)\s*[:\-]?\s*\$?([\d,\.]+)`,
`re.IGNORECASE`. -/
def novAmtRE : RE :=
  .seq (strI "total".data) (.seq wsPlus
  (.seq (.alt (.seq (strI "amount".data) (.seq wsPlus (strI "due".data)))
              (strI "usd".data))
  (.seq sepOpt (.seq (optC (· = '$')) (.grp 1 (.manyG isAmtC 1 none))))))

/-- Cronologic `Date\s*[:\-]?\s*(\d{4}-\d{2}-\d{2})`, `re.IGNORECASE`. -/
def croDateRE : RE :=
  .seq (strI "date".data) (.seq sepOpt
  (.grp 1 (.seq (.manyG isDigitC 4 (some 4)) (.seq (.cls (· = '-'))
           (.seq (.manyG isDigitC 2 (some 2)) (.seq (.cls (· = '-'))
           (.manyG isDigitC 2 (some 2))))))))

/-- Cronologic `Invoice\s*No\.?\s*[:\-]?\s*(\d+)`, `re.IGNORECASE`. -/
def croInvRE : RE :=
  .seq (strI "invoice".data) (.seq wsStar
  (.seq (strI "no".data) (.seq (optC (· = '.'))
  (.seq sepOpt (.grp 1 digPlus)))))

/-- Cronologic `PO[-\s]?(\d+)`, `re.IGNORECASE`. -/
def croPoRE : RE :=
  .seq (strI "po".data) (.seq (.manyG isDashWsC 0 (some 1)) (.grp 1 digPlus))

/-- Cronologic `Amount\s*(?:for\s*Payment)?\s*[:\-]?\s*\$?([\d,\.]+)`,
`re.IGNORECASE`. -/
def croAmtRE : RE :=
  .seq (strI "amount".data) (.seq wsStar
  (.seq (optG (.seq (strI "for".data) (.seq wsStar (strI "payment".data))))
  (.seq sepOpt (.seq (optC (· = '$')) (.grp 1 (.manyG isAmtC 1 none))))))

/-- `pattern.findall(text)` for a single-group pattern: the list of
group-1 captures, one per match, as strings. -/
def findall1 (re : RE) (text : String) : List String :=
  (searchAll re text.data).map (fun caps => String.mk (capGet caps 1))

/-- `pattern.findall(text)` for the four-group Mace pattern: the list
of group tuples `(g1, g2, g3, g4)` in match order. -/
def findall4 (re : RE) (text : String) : List (String × String × String × String) :=
  (searchAll re text.data).map (fun caps =>
    (String.mk (capGet caps 1), String.mk (capGet caps 2),
     String.mk (capGet caps 3), String.mk (capGet caps 4)))

/-! ## Extractors -/

/-- One Mace record (dict with keys "Invoice Date", "P.O. NO",
"Sciex PO", "Total Invoice Value(USD)"), all values present strings. -/
structure MaceRow where
  invoice_date : String
  po_no : String
  sciex_po : String
  total_usd : String
  deriving DecidableEq, Repr

/-- One Novanta / Cronologic record (dict with keys "Invoice Date",
"Invoice NO", "Sciex PO", "Total Invoice Value(USD)"); `none` models
Python `None`. -/
structure NCRow where
  invoice_date : Option String
  invoice_no : Option String
  sciex_po : Option String
  total_usd : Option String
  deriving DecidableEq, Repr

/-- Python truthiness of a captured optional string
(`None` and `""` are falsy). -/
def truthy : Option String → Bool
  | none => false
  | some s => s ≠ ""

/-- `any(row.values())` for a Novanta / Cronologic row. -/
def ncAny (r : NCRow) : Bool :=
  truthy r.invoice_date ∨ truthy r.invoice_no ∨ truthy r.sciex_po ∨ truthy r.total_usd

/-- `any([po_no, date, sciex_po, total_usd])` for a Mace row
(strings are truthy iff nonempty). -/
def maceAny (r : MaceRow) : Bool :=
  r.po_no ≠ "" ∨ r.invoice_date ≠ "" ∨ r.sciex_po ≠ "" ∨ r.total_usd ≠ ""

/-- `str.strip` on a string. -/
def stripS (s : String) : String := String.mk (pyStrip s.data)

/-- `extract_mace_multi(text)`: `findall` of the combined four-group
pattern; each match becomes a record with stripped fields, kept when
any field is nonempty. -/
def extract_mace_multi (text : String) : List MaceRow :=
  ((findall4 maceRE text).map (fun m =>
      { invoice_date := stripS m.2.1
        po_no := stripS m.1
        sciex_po := stripS m.2.2.1
        total_usd := stripS m.2.2.2 })).filter maceAny

/-- `dates[i] if i < len(dates) else None`. -/
def idxOpt (l : List String) (i : Nat) : Option String := l[i]?

/-- `extract_novanta(text)`: independent `findall` per field, rows
paired by positional index padded with `None`, rows with no truthy
value filtered out. -/
def extract_novanta (text : String) : List NCRow :=
  let dates := findall1 novDateRE text
  let invoice_nos := findall1 novInvRE text
  let po_nos := findall1 novPoRE text
  let amounts := findall1 novAmtRE text
  (((List.range (max (max dates.length invoice_nos.length)
                     (max po_nos.length amounts.length))).map (fun i =>
      { invoice_date := idxOpt dates i
        invoice_no := idxOpt invoice_nos i
        sciex_po := idxOpt po_nos i
        total_usd := idxOpt amounts i : NCRow })).filter ncAny)

/-- `extract_cronologic(text)`: same shape as `extract_novanta` with
the Cronologic patterns. -/
def extract_cronologic (text : String) : List NCRow :=
  let dates := findall1 croDateRE text
  let invoice_nos := findall1 croInvRE text
  let po_nos := findall1 croPoRE text
  let amounts := findall1 croAmtRE text
  (((List.range (max (max dates.length invoice_nos.length)
                     (max po_nos.length amounts.length))).map (fun i =>
      { invoice_date := idxOpt dates i
        invoice_no := idxOpt invoice_nos i
        sciex_po := idxOpt po_nos i
        total_usd := idxOpt amounts i : NCRow })).filter ncAny)

/-! ## PDF text extraction (`extract_text_from_pdf_bytes`)

`pdfplumber` is external; its observable behaviour towards the
function is modelled by `PdfDoc`: opening the document either raises
(`Except.error`) or yields the list of pages, and each
`page.extract_text()` call either raises, returns `None`, or returns
the page's text. -/

/-- Outcome of one `page.extract_text()` call. -/
abbrev PageRes := Except String (Option String)

/-- Outcome of `pdfplumber.open`: raises, or yields the pages. -/
abbrev PdfDoc := Except String (List PageRes)

/-- The `try:` block body of `extract_text_from_pdf_bytes`, walking the
pages and accumulating `text += page_text + "\n"`.  A raise carries the
text accumulated so far (which the `except` clause keeps, because
`text` survives the exception) together with the exception message. -/
def tryPages : List PageRes → String → Except (String × String) String
  | [], acc => .ok acc
  | p :: ps, acc =>
      match p with
      | .error e => .error (acc, e)
      | .ok none => tryPages ps acc
      | .ok (some t) => tryPages ps (acc ++ t ++ "\n")

/-- The whole `try:` block: open the document, then walk the pages. -/
def tryBody (doc : PdfDoc) : Except (String × String) String :=
  match doc with
  | .error e => .error ("", e)
  | .ok pages => tryPages pages ""

/-- `extract_text_from_pdf_bytes`: any exception from the `try:` block
is caught, shown via `st.error(f"Error reading PDF: {e}")`, and the
text accumulated so far is returned.  The result is the pair
(returned text, list of `st.error` messages shown). -/
def extract_text_from_pdf_bytes (doc : PdfDoc) : String × List String :=
  match tryBody doc with
  | .ok t => (t, [])
  | .error (acc, e) => (acc, ["Error reading PDF: " ++ e])

/-- Direct (exception-free) description of the text the claim says the
function returns: the concatenation of the page texts (each followed by
a newline) accumulated before the first failing page, empty when the
document fails to open. -/
def pdfAccumText : PdfDoc → String
  | .error _ => ""
  | .ok pages => go pages
where
  /-- Successful-prefix accumulation over the pages. -/
  go : List PageRes → String
    | [] => ""
    | .error _ :: _ => ""
    | .ok none :: ps => go ps
    | .ok (some t) :: ps => t ++ "\n" ++ go ps

/-- The first exception raised while reading the document, if any. -/
def pdfFirstErr : PdfDoc → Option String
  | .error e => some e
  | .ok pages => go pages
where
  /-- First failing page's message. -/
  go : List PageRes → Option String
    | [] => none
    | .error e :: _ => some e
    | .ok _ :: ps => go ps

/-! ## Per-file processing loop -/

/-- One uploaded file as the loop sees it: its name, and the outcome of
`uploaded_file.getvalue()` — the one expression of the loop's `try:`
block that can raise (an `Except.error` models that raise; `.ok` hands
the bytes, modelled as their `PdfDoc` parse behaviour, to
`extract_text_from_pdf_bytes`, which never raises). -/
structure FileIn where
  name : String
  content : Except String PdfDoc

/-- A line of the `logs` list.  `ok name n` renders as
`f"✅ {name}: {n} records extracted."`, `warn name` as
`f"⚠️ {name}: No data found."`, `err name msg` as
`f"❌ {name}: error - {msg}"`. -/
inductive LogEntry where
  | ok (name : String) (count : Nat)
  | warn (name : String)
  | err (name : String) (msg : String)
  deriving DecidableEq, Repr

/-- Body of one iteration of the per-file loop: returns the rows
contributed to `results`, the log line, and the `st.error` messages
shown by the text extraction.  An exception in the body (`getvalue`
raising) is caught by the `except` clause and logged; it aborts only
this file. -/
def processFile (extractor : String → List R) (f : FileIn) :
    List R × LogEntry × List String :=
  match f.content with
  | .error e => ([], .err f.name e, [])
  | .ok doc =>
      let te := extract_text_from_pdf_bytes doc
      let rows := extractor te.1
      if rows.isEmpty then ([], .warn f.name, te.2)
      else (rows, .ok f.name rows.length, te.2)

/-- The whole loop: files processed in upload order, `results` extended
in order, one log line per file. -/
def processFiles (extractor : String → List R) :
    List FileIn → List R × List LogEntry × List String
  | [] => ([], [], [])
  | f :: fs =>
      let one := processFile extractor f
      let rest := processFiles extractor fs
      (one.1 ++ rest.1, one.2.1 :: rest.2.1, one.2.2 ++ rest.2.2)

/-- Is a log line an error (`❌`) line? -/
def isErrEntry : LogEntry → Bool
  | .err _ _ => true
  | _ => false

/-- The error entries of a log (the `❌` lines). -/
def errEntries (logs : List LogEntry) : List LogEntry :=
  logs.filter isErrEntry

/-! ## Numeric coercion, formatting and export (`pandas` block)

Modelled `pandas` semantics (the source's calls on object-dtype
columns of captured strings / `None`):
* `Series.astype(str)` maps `str` over the elements (`None ↦ "None"`);
* `.str.replace(",", "", regex=False)` removes every comma;
* `.astype(float, errors="ignore")` attempts to convert the whole
  column and on any failure returns the column unchanged (all-or-
  nothing), per the documented "on error return original object";
* `Series * float_scalar` on a float column multiplies elementwise; on
  an object column of `str` it raises `TypeError` (Python `str * float`
  is unsupported);
* `float(s)` is modelled for the reachable alphabet (strings of digits
  and periods after comma removal, or strings such as `"None"`
  containing letters, which raise `ValueError`). -/

/-- `str(x)` for an optional string (`None ↦ "None"`). -/
def pyStr : Option String → String
  | none => "None"
  | some s => s

/-- Is a character anything but a comma? -/
def notComma (c : Char) : Bool := c ≠ ','

/-- Is a character anything but a period? -/
def notDot (c : Char) : Bool := c ≠ '.'

/-- Is a character a digit or a period (the accepted alphabet of the
modelled `float` literals)? -/
def digitOrDot (c : Char) : Bool := isDigitC c || c = '.'

/-- `.str.replace(",", "", regex=False)`. -/
def stripCommas (l : List Char) : List Char := l.filter notComma

/-- Numeric value of a big-endian digit list. -/
def digitsVal (l : List Char) : ℕ :=
  l.foldl (fun a c => 10 * a + (c.toNat - 48)) 0

/-- `float(s)` on the reachable alphabet: strips whitespace, accepts a
nonempty string of digits with at most one period (`"5."`, `".5"`
included), rejects everything else (`""`, `"."`, `"1.2.3"`, `"None"`).
-/
def pyFloat? (s : String) : Option ℚ :=
  let t := pyStrip s.data
  if t.all digitOrDot ∧ t.count '.' ≤ 1 ∧ t.any isDigitC then
    let ip := t.takeWhile notDot
    let fp := (t.dropWhile notDot).drop 1
    some (((digitsVal ip * 10 ^ fp.length + digitsVal fp : ℕ) : ℚ) / ((10 ^ fp.length : ℕ) : ℚ))
  else none

/-- A `pandas` column as the source manipulates it: either a float
column or an object column of strings. -/
inductive NumCol where
  | nums (vs : List ℚ)
  | strs (vs : List String)
  deriving DecidableEq, Repr

/-- Is the column a float column (true numeric values)? -/
def NumCol.isNums : NumCol → Bool
  | .nums _ => true
  | .strs _ => false

/-- `col.astype(str).str.replace(",", "").astype(float, errors="ignore")`
on a column of optional strings (line 172 of `app.py`). -/
def usdCoerce (usdRaw : List (Option String)) : NumCol :=
  let stripped := usdRaw.map (fun v => String.mk (stripCommas (pyStr v).data))
  match stripped.mapM pyFloat? with
  | some qs => .nums qs
  | none => .strs stripped

/-- `df[usd_col] * ex_rate` (line 174): elementwise product on a float
column, `TypeError` on an object column of strings. -/
def seriesMulScalar (col : NumCol) (r : ℚ) : Except String NumCol :=
  match col with
  | .nums qs => .ok (.nums (qs.map (· * r)))
  | .strs _ => .error "TypeError: cannot multiply sequence by non-int of type float"

/-- Round to the nearest integer, ties to even (the rounding of
Python's fixed-point float formatting, exact at rational inputs). -/
def roundHE (x : ℚ) : ℤ :=
  let n := ⌊x⌋
  if x - n < 1 / 2 then n
  else if 1 / 2 < x - n then n + 1
  else if n % 2 = 0 then n else n + 1

/-- Decimal digit character (`d < 10`). -/
def digitChr (d : ℕ) : Char :=
  match d with
  | 0 => '0' | 1 => '1' | 2 => '2' | 3 => '3' | 4 => '4'
  | 5 => '5' | 6 => '6' | 7 => '7' | 8 => '8' | _ => '9'

/-- Decimal rendering of a natural number. -/
def toDec (n : ℕ) : List Char :=
  if n = 0 then ['0'] else ((Nat.digits 10 n).map digitChr).reverse

/-- Insert a comma after every third emitted character while more
remain (input is the reversed digit list). -/
def commasRev : List Char → Nat → List Char
  | [], _ => []
  | c :: cs, k =>
      if k = 2 ∧ cs ≠ [] then c :: ',' :: commasRev cs 0
      else c :: commasRev cs (k + 1)

/-- Thousands grouping of a digit string (`"1234567" ↦ "1,234,567"`). -/
def group3 (l : List Char) : List Char := (commasRev l.reverse 0).reverse

/-- Two-digit zero-padded rendering (`r < 100`). -/
def pad2 (r : ℕ) : List Char := [digitChr (r / 10), digitChr (r % 10)]

/-- `f"{x:,.2f}"`: two decimal places, comma thousands separators. -/
def fmt2 (q : ℚ) : String :=
  let n := roundHE (100 * q)
  let m := n.natAbs
  String.mk ((if n < 0 then ['-'] else []) ++
    group3 (toDec (m / 100)) ++ '.' :: pad2 (m % 100))

/-- The display mapping `map(lambda x: f"{x:,.2f}" ...)` applied to a
column (on a float column; an object column would be left as is, but
the source only reaches the map on float columns). -/
def dispOf (col : NumCol) : List String :=
  match col with
  | .nums qs => qs.map fmt2
  | .strs ss => ss

/-- Column-name normalization (line 179):
`c.strip().lower().replace(" ", "_").replace(".", "").replace(":", "")`.
-/
def normName (s : String) : String :=
  String.mk ((((pyStrip s.data).map lowerC).map
    (fun c => if c = ' ' then '_' else c)).filter
    (fun c => c ≠ '.' ∧ c ≠ ':'))

/-- Export re-coercion (lines 187-189): `astype(str)` (identity on the
display strings), comma removal, `astype(float, errors="ignore")`. -/
def reExport (display : List String) : NumCol :=
  let stripped := display.map (fun s => String.mk (stripCommas s.data))
  match stripped.mapM pyFloat? with
  | some qs => .nums qs
  | none => .strs stripped

/-- Everything the claims observe about the built table. -/
structure BuildResult where
  colNames : List String
  usdDisplay : List String
  sgdDisplay : List String
  exRate : ℚ
  usdExport : NumCol
  sgdExport : NumCol
  deriving DecidableEq, Repr

/-- Dict-key column order of `pd.DataFrame(results)` for Mace rows. -/
def maceCols : List String :=
  ["Invoice Date", "P.O. NO", "Sciex PO", "Total Invoice Value(USD)"]

/-- Dict-key column order for Novanta / Cronologic rows. -/
def ncCols : List String :=
  ["Invoice Date", "Invoice NO", "Sciex PO", "Total Invoice Value(USD)"]

/-- Lines 166-198 of `app.py` on a nonempty `results` list, observed
through the USD column (the single column whose name contains "usd"),
the derived EX-RATE and SGD columns, the display strings, the column
names after the optional normalization pass, and the export
re-coercion.  `Except.error` models an uncaught exception (the
`TypeError` of `strings * float`). -/
def buildOutputs (usdRaw : List (Option String)) (rate : ℚ)
    (normalize : Bool) (baseCols : List String) : Except String BuildResult :=
  let usdCol := usdCoerce usdRaw
  match seriesMulScalar usdCol rate with
  | .error e => .error e
  | .ok sgdCol =>
      let usdDisp := dispOf usdCol
      let sgdDisp := dispOf sgdCol
      let names0 := baseCols ++ ["EX-RATE", "Total Invoice Value(SGD)"]
      let names := if normalize then names0.map normName else names0
      .ok { colNames := names
            usdDisplay := usdDisp
            sgdDisplay := sgdDisp
            exRate := rate
            usdExport :=
              if "Total Invoice Value(USD)" ∈ names then reExport usdDisp
              else .strs usdDisp
            sgdExport :=
              if "Total Invoice Value(SGD)" ∈ names then reExport sgdDisp
              else .strs sgdDisp }

/-! ## The `process_btn` block: validation gate plus the full run -/

/-- Outcome of pressing "Process Files". -/
inductive RunOutcome (R : Type) where
  | noFiles : RunOutcome R
  | badRate : RunOutcome R
  | done (results : List R) (logs : List LogEntry) (stErrors : List String)
         (output : Option (Except String BuildResult)) : RunOutcome R

/-- Lines 131-216: `if not uploaded_files: warning; elif ex_rate <= 0:
error; else:` run the loop and, when any records were produced, the
`pandas` block (`output = none` models the "No invoice data extracted"
branch). -/
def runProcess (usdOf : R → Option String) (extractor : String → List R)
    (files : List FileIn) (ex_rate : ℚ) (normalize : Bool)
    (baseCols : List String) : RunOutcome R :=
  if files.isEmpty then .noFiles
  else if ex_rate ≤ 0 then .badRate
  else
    let res := processFiles extractor files
    .done res.1 res.2.1 res.2.2
      (if res.1.isEmpty then none
       else some (buildOutputs (res.1.map usdOf) ex_rate normalize baseCols))

/-- The rows of the aggregated table a run produces (empty when the run
was blocked by validation). -/
def outputRows : RunOutcome R → List R
  | .noFiles => []
  | .badRate => []
  | .done rs _ _ _ => rs

/-- Was a user-facing validation message shown instead of processing? -/
def blockedByValidation : RunOutcome R → Bool
  | .noFiles => true
  | .badRate => true
  | .done _ _ _ _ => false

/-- USD projection of a Mace row (always a present string). -/
def maceUsd (r : MaceRow) : Option String := some r.total_usd

/-- USD projection of a Novanta / Cronologic row. -/
def ncUsd (r : NCRow) : Option String := r.total_usd

/-! ## Specification-side definitions

The remaining definitions are not translations of `app.py`; they state,
in direct form, behaviours that the claims attribute to the source, and
the theorems below compare them with the translated functions. -/

/-- The `st.error` messages `extract_text_from_pdf_bytes` shows:
exactly one per failed read, none otherwise. -/
def pdfErrMsgs (doc : PdfDoc) : List String :=
  match pdfFirstErr doc with
  | none => []
  | some e => ["Error reading PDF: " ++ e]

/-- Positional pairing of the per-field match lists, padding missing
positions with `None` (direct description of the single-shot
extractors' row construction). -/
def zipPad4 (ds ivs ps amts : List String) : List NCRow :=
  if ds = [] ∧ ivs = [] ∧ ps = [] ∧ amts = [] then []
  else
    { invoice_date := ds.head?, invoice_no := ivs.head?,
      sciex_po := ps.head?, total_usd := amts.head? } ::
      zipPad4 ds.tail ivs.tail ps.tail amts.tail
  termination_by ds.length + ivs.length + ps.length + amts.length
  decreasing_by
  rename_i h
  rcases ds with _ | ⟨d, ds⟩ <;> rcases ivs with _ | ⟨i, ivs⟩ <;>
    rcases ps with _ | ⟨p, ps⟩ <;> rcases amts with _ | ⟨a, amts⟩ <;>
    simp_all <;> omega

/-- Rounding a value to two decimal places (ties to even): the value
the export re-parses from the two-decimal display string. -/
def round2 (q : ℚ) : ℚ := (roundHE (100 * q) : ℚ) / 100

/-! ## Well-formed Mace multi-invoice documents

`MaceBlock` describes one "well-formed invoice block" of the spec's
multi-record property: the four anchored fields in order, separated by
gaps of unrelated content.  `gapOk` formalises "unrelated": characters
that can neither start one of the pattern's anchors (`P`/`D`/`T`,
case-insensitively, or `$`) nor be captured by the digit / amount
groups. -/

/-- A character of unrelated filler text. -/
def gapOk (c : Char) : Bool :=
  !isDigitC c && !(c == ',') && !(c == '.') && !(c == '$') &&
    !eqI 'p' c && !eqI 'd' c && !eqI 't' c

/-- One well-formed invoice block: field contents and the unrelated
gaps between them. -/
structure MaceBlock where
  po : List Char
  day : List Char
  mon : List Char
  year : List Char
  ref : List Char
  total : List Char
  g1 : List Char
  g2 : List Char
  g3 : List Char

/-- The text of one block:
`P.O. NO. {po}{g1}{day} {mon} {year}{g2}DDU Singapore {ref}{g3}TOTAL USD: {total}`. -/
def blockText (b : MaceBlock) : List Char :=
  "P.O. NO. ".data ++ b.po ++ b.g1 ++
    b.day ++ ' ' :: b.mon ++ ' ' :: b.year ++ b.g2 ++
    "DDU Singapore ".data ++ b.ref ++ b.g3 ++
    "TOTAL USD: ".data ++ b.total

/-- Shape constraints making a block well formed: fields drawn from the
alphabets of their capture groups (with the length bounds of the date
pattern), gaps made of unrelated characters, and a nonempty gap after
the PO number so that the PO digits do not run into the date. -/
def blockWf (b : MaceBlock) : Prop :=
  b.po ≠ [] ∧ b.po.all isDigitC ∧
  b.day ≠ [] ∧ b.day.length ≤ 2 ∧ b.day.all isDigitC ∧
  3 ≤ b.mon.length ∧ b.mon.length ≤ 9 ∧ b.mon.all isAlphaC ∧
  b.year.length = 4 ∧ b.year.all isDigitC ∧
  b.ref ≠ [] ∧ b.ref.all isDigitC ∧
  b.total ≠ [] ∧ b.total.all isAmtC ∧
  b.g1 ≠ [] ∧ b.g1.all gapOk ∧ b.g2.all gapOk ∧ b.g3.all gapOk

/-- The record the Mace extractor is expected to produce for a block. -/
def blockRow (b : MaceBlock) : MaceRow :=
  { invoice_date := String.mk (b.day ++ ' ' :: b.mon ++ ' ' :: b.year)
    po_no := String.mk b.po
    sciex_po := String.mk b.ref
    total_usd := String.mk b.total }

/-- A whole document: unrelated content, then a block, repeatedly, with
trailing unrelated content. -/
def asm : List (List Char × MaceBlock) → List Char → List Char
  | [], tail => tail
  | (sep, b) :: rest, tail => sep ++ (blockText b ++ asm rest tail)

/-- The date text of a block as the date group captures it. -/
def dateChars (b : MaceBlock) : List Char :=
  b.day ++ ' ' :: b.mon ++ ' ' :: b.year

/-- The capture list a block's match produces (groups close in order
1, 2, 3, 4, each pushed onto the front). -/
def blockCaps (b : MaceBlock) : Caps :=
  [(4, b.total), (3, b.ref), (2, dateChars b), (1, b.po)]

/-- The first character of `l`, when there is one, falsifies `p`. -/
def headNot (p : Char → Bool) (l : List Char) : Prop :=
  ∀ c, l.head? = some c → p c = false

/-- Case-insensitive equality of two character lists (the relation a
run of `litI` matchers tests). -/
def eqIL : List Char → List Char → Bool
  | [], [] => true
  | a :: as, c :: cs => eqI a c && eqIL as cs
  | _, _ => false

/-- First block of the concrete two-block scenario:
PO 1001, 05 Jan 2024, reference 9001, total 1,000.00. -/
def w7b1 : MaceBlock :=
  { po := "1001".data, day := "05".data, mon := "Jan".data, year := "2024".data
    ref := "9001".data, total := "1,000.00".data
    g1 := " x ".data, g2 := " ".data, g3 := " ".data }

/-- Second block of the concrete two-block scenario:
PO 1002, 10 Feb 2024, reference 9002, total 2,500.50. -/
def w7b2 : MaceBlock :=
  { po := "1002".data, day := "10".data, mon := "Feb".data, year := "2024".data
    ref := "9002".data, total := "2,500.50".data
    g1 := " x ".data, g2 := " ".data, g3 := " ".data }

/-- The two-block document: first block, an unrelated separator, the
second block. -/
def w7items : List (List Char × MaceBlock) :=
  [([], w7b1), (" -- some memo -- ".data, w7b2)]

/-! # Theorems (claim section markers refer to the claim list) -/

/-! ## Engine lemmas -/

/-- A matcher result never lengthens the input. -/
theorem mrun_length_le {re : RE} {s : List Char} {caps : Caps}
    {k : List Char → Caps → Option (Caps × List Char)} {r : Caps × List Char}
    (hk : ∀ s' caps', k s' caps' = some r → r.2.length ≤ s'.length)
    (h : mrun re s caps k = some r) : r.2.length ≤ s.length := by
  induction re generalizing s caps k with
  | eps => exact hk s caps h
  | cls p =>
      match s with
      | [] => simp [mrun] at h
      | c :: cs =>
          simp only [mrun] at h
          by_cases hp : p c
          · simp only [hp, if_true] at h
            exact le_trans (hk cs caps h) (Nat.le_succ _)
          · simp [hp] at h
  | seq a b iha ihb =>
      exact iha (fun s' caps' h' => ihb hk h') h
  | alt a b iha ihb =>
      simp only [mrun] at h
      rcases ha : mrun a s caps k with _ | v
      · rw [ha] at h
        exact ihb hk h
      · rw [ha] at h
        cases h
        exact iha hk ha
  | manyG p lo hi =>
      simp only [mrun] at h
      have : ∀ lens, firstSome (fun i => k (s.drop i) caps) lens = some r →
          r.2.length ≤ s.length := by
        intro lens
        induction lens with
        | nil => intro hc; simp [firstSome] at hc
        | cons n ns ih =>
            intro hc
            simp only [firstSome] at hc
            rcases hn : k (s.drop n) caps with _ | v
            · rw [hn] at hc
              exact ih hc
            · rw [hn] at hc
              cases hc
              exact le_trans (hk _ _ hn) (by simp)
      exact this _ h
  | manyL p lo hi =>
      simp only [mrun] at h
      have : ∀ lens, firstSome (fun i => k (s.drop i) caps) lens = some r →
          r.2.length ≤ s.length := by
        intro lens
        induction lens with
        | nil => intro hc; simp [firstSome] at hc
        | cons n ns ih =>
            intro hc
            simp only [firstSome] at hc
            rcases hn : k (s.drop n) caps with _ | v
            · rw [hn] at hc
              exact ih hc
            · rw [hn] at hc
              cases hc
              exact le_trans (hk _ _ hn) (by simp)
      exact this _ h
  | grp n rr ih =>
      exact ih (fun s' caps' h' => hk s' _ h') h

/-- The remaining input of a successful match is no longer than the
input. -/
theorem matchAt_length_le {re : RE} {s : List Char} {caps : Caps}
    {s' : List Char} (h : matchAt re s = some (caps, s')) :
    s'.length ≤ s.length := by
  have := mrun_length_le (r := (caps, s'))
    (fun t c hh => by cases hh; exact le_refl _) h
  exact this

/-- The scan loop does not depend on the fuel once the fuel exceeds the
input length. -/
theorem searchAllF_congr (re : RE) :
    ∀ f1 f2 s, s.length < f1 → s.length < f2 →
      searchAllF re f1 s = searchAllF re f2 s := by
  intro f1
  induction f1 with
  | zero => intro f2 s h1; omega
  | succ f ih =>
      intro f2 s h1 h2
      match f2, s with
      | f2 + 1, [] => rfl
      | f2 + 1, c :: rest =>
          simp only [searchAllF]
          rcases hm : matchAt re (c :: rest) with _ | ⟨caps, s'⟩
          · exact ih f2 rest (by simp at h1 ⊢; omega) (by simp at h2 ⊢; omega)
          · have hle : s'.length ≤ (c :: rest).length := matchAt_length_le hm
            by_cases hlt : s'.length < (c :: rest).length
            · simp only [hlt, if_true]
              exact congrArg _ (ih f2 s' (by omega) (by omega))
            · simp only [hlt, if_false]
              exact congrArg _ (ih f2 rest (by simp at h1 ⊢; omega)
                (by simp at h2 ⊢; omega))

/-- Unfolding `searchAll` when no match starts at the current
position. -/
theorem searchAll_cons_none {re : RE} {c : Char} {rest : List Char}
    (h : matchAt re (c :: rest) = none) :
    searchAll re (c :: rest) = searchAll re rest := by
  unfold searchAll
  rw [show (c :: rest).length + 1 = (rest.length + 1) + 1 by simp]
  simp only [searchAllF, h]

/-- Unfolding `searchAll` at a successful match that consumes at least
one character. -/
theorem searchAll_cons_some {re : RE} {c : Char} {rest s' : List Char}
    {caps : Caps} (h : matchAt re (c :: rest) = some (caps, s'))
    (hlt : s'.length < (c :: rest).length) :
    searchAll re (c :: rest) = caps :: searchAll re s' := by
  unfold searchAll
  rw [show (c :: rest).length + 1 = (rest.length + 1) + 1 by simp]
  simp only [searchAllF, h, hlt, if_true]
  refine congrArg _ (searchAllF_congr re (rest.length + 1) (s'.length + 1) s'
    (by simp at hlt; omega) (Nat.lt_succ_self _))

/-! ## C3: the validation gate -/

/-- C3: a run invoked with `ex_rate ≤ 0` (or with no files supplied) is
blocked entirely: nothing is processed, the aggregated table has zero
rows, and the outcome is a user-facing validation message — regardless
of the uploaded files' contents. -/
theorem validation_blocks_processing {R : Type} (usdOf : R → Option String)
    (extractor : String → List R) (files : List FileIn) (ex_rate : ℚ)
    (normalize : Bool) (baseCols : List String)
    (h : ex_rate ≤ 0 ∨ files = []) :
    outputRows (runProcess usdOf extractor files ex_rate normalize baseCols) = ([] : List R) ∧
    blockedByValidation (runProcess usdOf extractor files ex_rate normalize baseCols) = true := by
  rcases h with h | h
  · cases files with
    | nil => simp [runProcess, outputRows, blockedByValidation]
    | cons f fs => simp [runProcess, outputRows, blockedByValidation, h]
  · subst h
    simp [runProcess, outputRows, blockedByValidation]

/-- Witness for C3: a zero exchange rate blocks a run over a file whose
text holds perfectly extractable Novanta data. -/
theorem validation_blocks_processing_witness :
    ((0 : ℚ) ≤ 0 ∨
      ([⟨"inv1.pdf", .ok (.ok [.ok
        (some "Date: 01/02/2024 Invoice ID: 5 ABSCIEX-S 9 TOTAL USD: 5.00")])⟩] : List FileIn) = []) ∧
    (outputRows (runProcess ncUsd extract_novanta
      [⟨"inv1.pdf", .ok (.ok [.ok
        (some "Date: 01/02/2024 Invoice ID: 5 ABSCIEX-S 9 TOTAL USD: 5.00")])⟩]
      0 false ncCols) = ([] : List NCRow) ∧
     blockedByValidation (runProcess ncUsd extract_novanta
      [⟨"inv1.pdf", .ok (.ok [.ok
        (some "Date: 01/02/2024 Invoice ID: 5 ABSCIEX-S 9 TOTAL USD: 5.00")])⟩]
      0 false ncCols) = true) :=
  ⟨Or.inl (le_refl 0),
   validation_blocks_processing ncUsd extract_novanta _ 0 false ncCols (Or.inl (le_refl 0))⟩

/-! ## C9: `extract_text_from_pdf_bytes` never raises -/

/-- The `try:` block of the text extraction, characterised without
exceptions: it returns the text accumulated up to the first failure
together with that failure, if any. -/
theorem tryPages_eq (ps : List PageRes) : ∀ acc : String,
    tryPages ps acc =
      (match pdfFirstErr.go ps with
       | none => .ok (acc ++ pdfAccumText.go ps)
       | some e => .error (acc ++ pdfAccumText.go ps, e)) := by
  induction ps with
  | nil => intro acc; simp [tryPages, pdfFirstErr.go, pdfAccumText.go]
  | cons p ps ih =>
      intro acc
      match p with
      | .error e => simp [tryPages, pdfFirstErr.go, pdfAccumText.go]
      | .ok none => simp [tryPages, pdfFirstErr.go, pdfAccumText.go, ih]
      | .ok (some t) =>
          rcases hgo : pdfFirstErr.go ps with _ | e <;>
            simp [tryPages, pdfFirstErr.go, pdfAccumText.go, ih, hgo,
              String.append_assoc]

/-- C9: `extract_text_from_pdf_bytes` never propagates an exception —
for every document behaviour it returns, as a plain pair, the page text
accumulated before the first failure (empty when opening fails)
together with at most one `st.error` message. -/
theorem extract_text_never_raises (doc : PdfDoc) :
    extract_text_from_pdf_bytes doc = (pdfAccumText doc, pdfErrMsgs doc) := by
  match doc with
  | .error e => rfl
  | .ok pages =>
      rcases hgo : pdfFirstErr.go pages with _ | e <;>
        simp [extract_text_from_pdf_bytes, tryBody, pdfAccumText, pdfErrMsgs,
          pdfFirstErr, tryPages_eq, hgo, String.empty_append]

/-! ## C4: per-file isolation in the processing loop -/

/-- Helper: for a file whose `getvalue` succeeds, the loop contributes
exactly the extractor's rows (the empty-row branch contributes the
empty list, which equals the extractor's output there). -/
theorem processFile_ok_rows {R : Type} (extractor : String → List R)
    (name : String) (doc : PdfDoc) :
    (processFile extractor ⟨name, .ok doc⟩).1 =
      extractor (extract_text_from_pdf_bytes doc).1 := by
  by_cases h : (extractor (extract_text_from_pdf_bytes doc).1).isEmpty
  · simp only [processFile, h, if_true]
    exact (List.isEmpty_iff.mp h).symm
  · simp [processFile, h]

/-- Helper: a file whose `getvalue` succeeds never produces an error
log entry (only a success or warning line). -/
theorem processFile_ok_log {R : Type} (extractor : String → List R)
    (name : String) (doc : PdfDoc) (m e : String) :
    (processFile extractor ⟨name, .ok doc⟩).2.1 ≠ .err m e := by
  by_cases h : (extractor (extract_text_from_pdf_bytes doc).1).isEmpty <;>
    simp [processFile, h]

/-- C4: in a three-file batch in which the second file's text
extraction step raises and the others do not, the second file is
skipped, its log line is the single error entry of the run, and the
aggregated rows are exactly the first file's records followed by the
third file's records. -/
theorem per_file_isolation {R : Type} (extractor : String → List R)
    (n1 n2 n3 e2 : String) (d1 d3 : PdfDoc) :
    (processFiles extractor [⟨n1, .ok d1⟩, ⟨n2, .error e2⟩, ⟨n3, .ok d3⟩]).1 =
      extractor (extract_text_from_pdf_bytes d1).1 ++
        extractor (extract_text_from_pdf_bytes d3).1 ∧
    errEntries (processFiles extractor
        [⟨n1, .ok d1⟩, ⟨n2, .error e2⟩, ⟨n3, .ok d3⟩]).2.1 = [.err n2 e2] ∧
    (processFiles extractor [⟨n1, .ok d1⟩, ⟨n2, .error e2⟩, ⟨n3, .ok d3⟩]).2.1.length = 3 := by
  refine ⟨?_, ?_, ?_⟩
  · simp [processFiles, processFile_ok_rows]
    rfl
  · have h1 := processFile_ok_log extractor n1 d1
    have h3 := processFile_ok_log extractor n3 d3
    have e1 : isErrEntry (processFile extractor ⟨n1, .ok d1⟩).2.1 = false := by
      rcases hl1 : (processFile extractor ⟨n1, .ok d1⟩).2.1 with ⟨a, n⟩ | a | ⟨a, b⟩
      · rfl
      · rfl
      · exact absurd hl1 (h1 a b)
    have e3 : isErrEntry (processFile extractor ⟨n3, .ok d3⟩).2.1 = false := by
      rcases hl3 : (processFile extractor ⟨n3, .ok d3⟩).2.1 with ⟨x, n⟩ | x | ⟨x, y⟩
      · rfl
      · rfl
      · exact absurd hl3 (h3 x y)
    have hmid : processFile extractor ⟨n2, .error e2⟩ = ([], .err n2 e2, []) := rfl
    simp [processFiles, errEntries, List.filter_cons, hmid, e1, e3, isErrEntry]
  · simp [processFiles]

/-! ## C1: what the single-shot extractors return when nothing matches -/

/-- C1 (counterexample): on text with no matching anchors — where every
field of the would-be record is `None` — the Novanta and Cronologic
extractors return zero records, not the one all-`None` record the claim
asserts; the fully-empty record is filtered inside the extractor, not
by the caller. -/
theorem nc_empty_text_zero_records :
    extract_novanta "" = [] ∧ extract_cronologic "" = [] ∧
    (extract_novanta "").length ≠ 1 ∧ (extract_cronologic "").length ≠ 1 := by
  decide

/-- C1 (amended): the extractors build one row per positional match
index and themselves drop every row without a truthy field, so no
returned record is fully empty and a no-match text yields the empty
sequence; the caller extends the table with the extractor's output
unchanged (it discards nothing). -/
theorem nc_extractor_filters_internally :
    (∀ text : String, ∀ r ∈ extract_novanta text, ncAny r = true) ∧
    (∀ text : String, ∀ r ∈ extract_cronologic text, ncAny r = true) ∧
    (∀ text : String, findall1 novDateRE text = [] → findall1 novInvRE text = [] →
      findall1 novPoRE text = [] → findall1 novAmtRE text = [] →
      extract_novanta text = []) ∧
    (∀ text : String, findall1 croDateRE text = [] → findall1 croInvRE text = [] →
      findall1 croPoRE text = [] → findall1 croAmtRE text = [] →
      extract_cronologic text = []) ∧
    (∀ (R : Type) (extractor : String → List R) (name : String) (doc : PdfDoc),
      (processFile extractor ⟨name, .ok doc⟩).1 =
        extractor (extract_text_from_pdf_bytes doc).1) := by
  refine ⟨?_, ?_, ?_, ?_, ?_⟩
  · intro text r hr
    simp only [extract_novanta] at hr
    exact List.of_mem_filter hr
  · intro text r hr
    simp only [extract_cronologic] at hr
    exact List.of_mem_filter hr
  · intro text h1 h2 h3 h4
    simp [extract_novanta, h1, h2, h3, h4]
  · intro text h1 h2 h3 h4
    simp [extract_cronologic, h1, h2, h3, h4]
  · intro R extractor name doc
    exact processFile_ok_rows extractor name doc

/-- Witness for C1 (amended), at the empty text and at a text with an
anchor-free sentence. -/
theorem nc_extractor_filters_internally_witness :
    (findall1 novDateRE "just a memo" = [] ∧ findall1 novInvRE "just a memo" = [] ∧
     findall1 novPoRE "just a memo" = [] ∧ findall1 novAmtRE "just a memo" = [] ∧
     findall1 croDateRE "just a memo" = [] ∧ findall1 croInvRE "just a memo" = [] ∧
     findall1 croPoRE "just a memo" = [] ∧ findall1 croAmtRE "just a memo" = []) ∧
    extract_novanta "just a memo" = [] ∧ extract_cronologic "just a memo" = [] :=
  ⟨⟨by decide, by decide, by decide, by decide, by decide, by decide, by decide, by decide⟩,
   nc_extractor_filters_internally.2.2.1 "just a memo"
     (by decide) (by decide) (by decide) (by decide),
   nc_extractor_filters_internally.2.2.2.1 "just a memo"
     (by decide) (by decide) (by decide) (by decide)⟩

/-! ## C6: total extractors, empty sequence on no match -/

/-- C6: each extractor is a total function (it can never raise — its
type is plain `String → List _`), and when its pattern(s) find no
match anywhere in the text it returns the empty sequence rather than an
error. -/
theorem extractors_empty_on_no_match :
    (∀ text : String, searchAll maceRE text.data = [] → extract_mace_multi text = []) ∧
    (∀ text : String, searchAll novDateRE text.data = [] →
      searchAll novInvRE text.data = [] → searchAll novPoRE text.data = [] →
      searchAll novAmtRE text.data = [] → extract_novanta text = []) ∧
    (∀ text : String, searchAll croDateRE text.data = [] →
      searchAll croInvRE text.data = [] → searchAll croPoRE text.data = [] →
      searchAll croAmtRE text.data = [] → extract_cronologic text = []) := by
  refine ⟨?_, ?_, ?_⟩
  · intro text h
    simp [extract_mace_multi, findall4, h]
  · intro text h1 h2 h3 h4
    simp [extract_novanta, findall1, h1, h2, h3, h4]
  · intro text h1 h2 h3 h4
    simp [extract_cronologic, findall1, h1, h2, h3, h4]

/-- Witness for C6: an anchor-free text (and the empty text) makes
every extractor return the empty sequence. -/
theorem extractors_empty_on_no_match_witness :
    (searchAll maceRE "quiet afternoon".data = [] ∧
     searchAll novDateRE "quiet afternoon".data = [] ∧
     searchAll novInvRE "quiet afternoon".data = [] ∧
     searchAll novPoRE "quiet afternoon".data = [] ∧
     searchAll novAmtRE "quiet afternoon".data = [] ∧
     searchAll croDateRE "quiet afternoon".data = [] ∧
     searchAll croInvRE "quiet afternoon".data = [] ∧
     searchAll croPoRE "quiet afternoon".data = [] ∧
     searchAll croAmtRE "quiet afternoon".data = []) ∧
    extract_mace_multi "quiet afternoon" = [] ∧
    extract_novanta "quiet afternoon" = [] ∧
    extract_cronologic "quiet afternoon" = [] ∧
    extract_mace_multi "" = [] :=
  ⟨⟨by decide, by decide, by decide, by decide, by decide, by decide, by decide,
    by decide, by decide⟩,
   extractors_empty_on_no_match.1 "quiet afternoon" (by decide),
   extractors_empty_on_no_match.2.1 "quiet afternoon"
     (by decide) (by decide) (by decide) (by decide),
   extractors_empty_on_no_match.2.2 "quiet afternoon"
     (by decide) (by decide) (by decide) (by decide),
   extractors_empty_on_no_match.1 "" (by decide)⟩

/-! ## C8: the Mace anchors are optional in the pattern -/

/-- C8 (counterexample): in a text with no `DDU Singapore` anchor and
no `TOTAL USD` label at all, the Mace extractor still captures a
reference PO (`9999`, the first digit run after the date) and a total
(`777`, the next digit run), contradicting the claim that these fields
are captured only behind their anchors. -/
theorem mace_anchorless_capture_cex :
    extract_mace_multi "P.O. NO. 1001 x 05 Jan 2024 x 9999 x 777" =
      [{ invoice_date := "05 Jan 2024", po_no := "1001",
         sciex_po := "9999", total_usd := "777" }] := by
  decide

/-- C8 (amended): both anchors are optional groups — after the date the
third group captures the earliest digit run whether or not `DDU
Singapore` precedes it (consuming the anchor when it is present at that
earliest position), and the fourth group captures the earliest
following run of digits/commas/periods, consuming a preceding `TOTAL
USD` label or `$` when present. -/
theorem mace_anchors_optional :
    extract_mace_multi
        "P.O. NO. 55 x 12 Mar 2021 x DDU Singapore 8001 x TOTAL USD: 9.99" =
      [{ invoice_date := "12 Mar 2021", po_no := "55",
         sciex_po := "8001", total_usd := "9.99" }] ∧
    extract_mace_multi "P.O. NO. 56 x 13 Apr 2022 x 4242 x 3.50" =
      [{ invoice_date := "13 Apr 2022", po_no := "56",
         sciex_po := "4242", total_usd := "3.50" }] := by
  constructor
  · decide
  · decide

/-! ## C10: positional pairing in the single-shot extractors -/

/-- Helper: the index-based row construction of the source equals the
direct positional zip with `None` padding. -/
theorem zipPad4_eq_range (ds ivs ps amts : List String) :
    (List.range (max (max ds.length ivs.length) (max ps.length amts.length))).map
      (fun i => ({ invoice_date := idxOpt ds i, invoice_no := idxOpt ivs i,
                   sciex_po := idxOpt ps i, total_usd := idxOpt amts i } : NCRow)) =
    zipPad4 ds ivs ps amts := by
  induction ds, ivs, ps, amts using zipPad4.induct with
  | case1 ds ivs ps amts hall =>
      obtain ⟨h1, h2, h3, h4⟩ := hall
      subst h1; subst h2; subst h3; subst h4
      simp [zipPad4]
  | case2 ds ivs ps amts hall ih =>
      rw [zipPad4]
      rw [if_neg hall]
      have hM : max (max ds.length ivs.length) (max ps.length amts.length) =
          (max (max ds.tail.length ivs.tail.length)
            (max ps.tail.length amts.tail.length)) + 1 := by
        have t1 : ds.tail.length = ds.length - 1 := by cases ds <;> simp
        have t2 : ivs.tail.length = ivs.length - 1 := by cases ivs <;> simp
        have t3 : ps.tail.length = ps.length - 1 := by cases ps <;> simp
        have t4 : amts.tail.length = amts.length - 1 := by cases amts <;> simp
        have h5 : ds.length ≠ 0 ∨ ivs.length ≠ 0 ∨ ps.length ≠ 0 ∨ amts.length ≠ 0 := by
          by_contra hc
          push_neg at hc
          exact hall ⟨List.length_eq_zero.mp hc.1, List.length_eq_zero.mp hc.2.1,
            List.length_eq_zero.mp hc.2.2.1, List.length_eq_zero.mp hc.2.2.2⟩
        rw [t1, t2, t3, t4]
        omega
      rw [hM, List.range_succ_eq_map, List.map_cons, List.map_map]
      have hhead : ∀ l : List String, idxOpt l 0 = l.head? := by
        intro l; cases l <;> simp [idxOpt]
      have htail : ∀ (l : List String) (i : Nat), idxOpt l (i + 1) = idxOpt l.tail i := by
        intro l i; cases l <;> simp [idxOpt]
      rw [← ih]
      congr 1
      · simp [hhead]
      · refine List.map_congr_left (fun i _ => ?_)
        simp [Function.comp, htail]

/-- C10: the single-shot extractors collect each field's matches
independently over the whole text and pair them by positional index,
padding with `None` and dropping rows with no truthy field — so the
record count is the padded-zip length minus the all-`None` rows, and a
record's fields need not come from the same region of the text (in the
concrete conjunct the total is matched before the date). -/
theorem nc_positional_pairing :
    (∀ text : String, extract_novanta text =
      (zipPad4 (findall1 novDateRE text) (findall1 novInvRE text)
               (findall1 novPoRE text) (findall1 novAmtRE text)).filter ncAny) ∧
    (∀ text : String, extract_cronologic text =
      (zipPad4 (findall1 croDateRE text) (findall1 croInvRE text)
               (findall1 croPoRE text) (findall1 croAmtRE text)).filter ncAny) ∧
    extract_novanta "TOTAL USD: 55 and later Date: 01/02/2024" =
      [{ invoice_date := some "01/02/2024", invoice_no := none,
         sciex_po := none, total_usd := some "55" }] := by
  refine ⟨fun text => ?_, fun text => ?_, by decide⟩
  · simp only [extract_novanta]
    rw [zipPad4_eq_range]
  · simp only [extract_cronologic]
    rw [zipPad4_eq_range]

/-! ## Decimal rendering / parsing round trip (for C2) -/

/-- Folding the digit-value accumulator from an arbitrary seed. -/
theorem digitsVal_go (l : List Char) : ∀ s : ℕ,
    l.foldl (fun a c => 10 * a + (c.toNat - 48)) s =
      s * 10 ^ l.length + digitsVal l := by
  induction l with
  | nil => intro s; simp [digitsVal]
  | cons c cs ih =>
      intro s
      simp only [List.foldl_cons, digitsVal] at ih ⊢
      rw [ih (10 * s + (c.toNat - 48)), ih (10 * 0 + (c.toNat - 48))]
      simp [List.length_cons, pow_succ]
      ring

/-- Digit values of concatenated digit strings. -/
theorem digitsVal_append (a b : List Char) :
    digitsVal (a ++ b) = digitsVal a * 10 ^ b.length + digitsVal b := by
  simp only [digitsVal, List.foldl_append]
  exact digitsVal_go b _

/-- The value of a digit character. -/
theorem digitChr_toNat (d : ℕ) (h : d < 10) : (digitChr d).toNat - 48 = d := by
  interval_cases d <;> rfl

/-- Character facts about rendered digits. -/
theorem digitChr_facts (d : ℕ) :
    isDigitC (digitChr d) = true ∧ digitChr d ≠ '.' ∧ digitChr d ≠ ',' ∧
      isWsC (digitChr d) = false := by
  unfold digitChr
  split <;> decide

/-- Rendering then revaluing a natural number is the identity. -/
theorem toDec_val (n : ℕ) : digitsVal (toDec n) = n := by
  by_cases h : n = 0
  · subst h; decide
  · simp only [toDec, if_neg h]
    have key : ∀ l : List ℕ, (∀ d ∈ l, d < 10) →
        digitsVal ((l.map digitChr).reverse) = Nat.ofDigits 10 l := by
      intro l
      induction l with
      | nil => intro _; simp [digitsVal, Nat.ofDigits_nil]
      | cons d ds ih =>
          intro hb
          simp only [List.map_cons, List.reverse_cons]
          rw [digitsVal_append, ih (fun x hx => hb x (List.mem_cons_of_mem _ hx))]
          have hone : digitsVal [digitChr d] = d := by
            simp only [digitsVal, List.foldl_cons, List.foldl_nil]
            rw [Nat.mul_zero, Nat.zero_add, digitChr_toNat d (hb d (List.mem_cons_self _ _))]
          rw [hone, Nat.ofDigits_cons]
          simp
          ring
    rw [key _ (fun d hd => Nat.digits_lt_base (by norm_num) hd), Nat.ofDigits_digits]

/-- Every character of a rendered natural number is a plain digit. -/
theorem toDec_chars (n : ℕ) : ∀ c ∈ toDec n,
    isDigitC c = true ∧ c ≠ '.' ∧ c ≠ ',' ∧ isWsC c = false := by
  intro c hc
  by_cases h : n = 0
  · subst h
    simp [toDec] at hc
    subst hc; decide
  · simp only [toDec, if_neg h, List.mem_reverse] at hc
    obtain ⟨d, _, rfl⟩ := List.mem_map.mp hc
    exact digitChr_facts d

/-- A rendered natural number is nonempty. -/
theorem toDec_ne_nil (n : ℕ) : toDec n ≠ [] := by
  by_cases h : n = 0
  · subst h; decide
  · simp only [toDec, if_neg h]
    simp [Nat.digits_ne_nil_iff_ne_zero.mpr h]

/-- Removing the commas that the grouping pass inserted restores the
digit string. -/
theorem commasRev_filter (l : List Char) : ∀ k, ',' ∉ l →
    stripCommas (commasRev l k) = l := by
  induction l with
  | nil => intro k _; rfl
  | cons c cs ih =>
      intro k h
      have hc : notComma c = true := by
        simp only [notComma, decide_eq_true_eq]
        exact fun e => h (e ▸ List.mem_cons_self _ _)
      have hcs : ',' ∉ cs := fun e => h (List.mem_cons_of_mem _ e)
      simp only [commasRev]
      by_cases hk : k = 2 ∧ cs ≠ []
      · rw [if_pos hk]
        simp only [stripCommas] at ih ⊢
        rw [List.filter_cons_of_pos hc, List.filter_cons_of_neg (by decide),
          ih 0 hcs]
      · rw [if_neg hk]
        simp only [stripCommas] at ih ⊢
        rw [List.filter_cons_of_pos hc, ih (k + 1) hcs]

/-- Comma removal undoes thousands grouping. -/
theorem group3_strip (l : List Char) (h : ',' ∉ l) :
    stripCommas (group3 l) = l := by
  simp only [stripCommas, group3]
  rw [List.filter_reverse]
  have := commasRev_filter l.reverse 0 (by simpa using h)
  simp only [stripCommas] at this
  rw [this, List.reverse_reverse]

/-- Value of the two-digit zero-padded rendering. -/
theorem pad2_val (r : ℕ) (h : r < 100) : digitsVal (pad2 r) = r := by
  simp only [pad2, digitsVal, List.foldl_cons, List.foldl_nil]
  rw [Nat.mul_zero, Nat.zero_add, digitChr_toNat _ (by omega),
    digitChr_toNat _ (Nat.mod_lt _ (by norm_num))]
  omega

/-- Character facts about the two-digit rendering. -/
theorem pad2_chars (r : ℕ) : ∀ c ∈ pad2 r,
    isDigitC c = true ∧ c ≠ '.' ∧ c ≠ ',' ∧ isWsC c = false := by
  intro c hc
  simp only [pad2, List.mem_cons, List.mem_singleton] at hc
  rcases hc with rfl | rfl | hc
  · exact digitChr_facts _
  · exact digitChr_facts _
  · simp at hc

/-- Stripping whitespace from a whitespace-free string is the identity. -/
theorem pyStrip_eq_self (l : List Char) (h : ∀ c ∈ l, isWsC c = false) :
    pyStrip l = l := by
  have hdrop : ∀ m : List Char, (∀ c ∈ m, isWsC c = false) → m.dropWhile isWsC = m := by
    intro m hm
    cases m with
    | nil => rfl
    | cons c cs => rw [List.dropWhile_cons_of_neg (by simp [hm c (List.mem_cons_self _ _)])]
  unfold pyStrip
  rw [hdrop l h, hdrop l.reverse (fun c hc => h c (List.mem_reverse.mp hc)),
    List.reverse_reverse]

/-- Splitting a list at the first character failing the predicate. -/
theorem takeWhile_append_of_all (p : Char → Bool) (x : Char) (a bs : List Char)
    (ha : ∀ c ∈ a, p c = true) (hx : p x = false) :
    (a ++ x :: bs).takeWhile p = a ∧ (a ++ x :: bs).dropWhile p = x :: bs := by
  induction a with
  | nil => simp [List.takeWhile_cons, List.dropWhile_cons, hx]
  | cons c cs ih =>
      have hc : p c = true := ha c (List.mem_cons_self _ _)
      have hrec := ih (fun y hy => ha y (List.mem_cons_of_mem _ hy))
      simp [List.takeWhile_cons, List.dropWhile_cons, hc, hrec]

/-- Parsing a rendered fixed-point string `ipart.fpart` made of plain
digits yields the expected fraction. -/
theorem pyFloat?_frac (ipart fpart : List Char)
    (hip : ∀ c ∈ ipart, isDigitC c = true ∧ c ≠ '.' ∧ c ≠ ',' ∧ isWsC c = false)
    (hfp : ∀ c ∈ fpart, isDigitC c = true ∧ c ≠ '.' ∧ c ≠ ',' ∧ isWsC c = false)
    (hne : ipart ≠ []) :
    pyFloat? (String.mk (ipart ++ '.' :: fpart)) =
      some (((digitsVal ipart * 10 ^ fpart.length + digitsVal fpart : ℕ) : ℚ) /
        ((10 ^ fpart.length : ℕ) : ℚ)) := by
  have hstrip : pyStrip (ipart ++ '.' :: fpart) = ipart ++ '.' :: fpart := by
    refine pyStrip_eq_self _ (fun c hc => ?_)
    rcases List.mem_append.mp hc with hc | hc
    · exact (hip c hc).2.2.2
    · rcases List.mem_cons.mp hc with rfl | hc
      · decide
      · exact (hfp c hc).2.2.2
  have hcond : (ipart ++ '.' :: fpart).all digitOrDot ∧
      (ipart ++ '.' :: fpart).count '.' ≤ 1 ∧
      (ipart ++ '.' :: fpart).any isDigitC := by
    refine ⟨?_, ?_, ?_⟩
    · rw [List.all_eq_true]
      intro c hc
      rcases List.mem_append.mp hc with hc | hc
      · simp [digitOrDot, (hip c hc).1]
      · rcases List.mem_cons.mp hc with rfl | hc
        · decide
        · simp [digitOrDot, (hfp c hc).1]
    · rw [List.count_append, List.count_cons]
      have h1 : ipart.count '.' = 0 := by
        rw [List.count_eq_zero]
        exact fun hmem => (hip _ hmem).2.1 rfl
      have h2 : fpart.count '.' = 0 := by
        rw [List.count_eq_zero]
        exact fun hmem => (hfp _ hmem).2.1 rfl
      simp [h1, h2]
    · rw [List.any_eq_true]
      obtain ⟨c, hc⟩ := List.exists_mem_of_ne_nil ipart hne
      exact ⟨c, List.mem_append_left _ hc, (hip c hc).1⟩
  have htake := takeWhile_append_of_all notDot '.' ipart fpart
    (fun c hc => by simp [notDot, (hip c hc).2.1]) (by decide)
  have hdata : (String.mk (ipart ++ '.' :: fpart)).data = ipart ++ '.' :: fpart := rfl
  simp only [pyFloat?, hdata, hstrip]
  rw [if_pos hcond, htake.1, htake.2]
  simp

/-- Parsing back the canonical two-decimal rendering of `m` cents
yields `m / 100`. -/
theorem pyFloat?_render (m : ℕ) :
    pyFloat? (String.mk (toDec (m / 100) ++ '.' :: pad2 (m % 100))) =
      some ((m : ℚ) / 100) := by
  rw [pyFloat?_frac _ _ (toDec_chars _) (pad2_chars _) (toDec_ne_nil _)]
  congr 1
  rw [toDec_val, pad2_val _ (Nat.mod_lt _ (by norm_num))]
  have hm : m / 100 * 10 ^ ([digitChr (m % 100 / 10), digitChr (m % 100 % 10)] :
      List Char).length + m % 100 = m := by
    simp
    omega
  rw [show (pad2 (m % 100)) = [digitChr (m % 100 / 10), digitChr (m % 100 % 10)] from rfl,
    hm]
  norm_num

/-- Half-to-even rounding of a nonnegative value is nonnegative. -/
theorem roundHE_nonneg (x : ℚ) (h : 0 ≤ x) : 0 ≤ roundHE x := by
  have hn : (0 : ℤ) ≤ ⌊x⌋ := Int.floor_nonneg.mpr h
  simp only [roundHE]
  split_ifs <;> omega

/-- Round trip of C2: formatting a nonnegative value with two decimals
and thousands separators, then removing commas and re-parsing, yields
exactly the value rounded to cents. -/
theorem fmt2_reparse (q : ℚ) (hq : 0 ≤ q) :
    pyFloat? (String.mk (stripCommas (fmt2 q).data)) = some (round2 q) := by
  have hn : 0 ≤ roundHE (100 * q) := roundHE_nonneg _ (by positivity)
  have hdata : (fmt2 q).data =
      group3 (toDec ((roundHE (100 * q)).natAbs / 100)) ++
        '.' :: pad2 ((roundHE (100 * q)).natAbs % 100) := by
    simp only [fmt2]
    rw [if_neg (by omega), List.nil_append]
  rw [hdata]
  have hsplit : stripCommas (group3 (toDec ((roundHE (100 * q)).natAbs / 100)) ++
      '.' :: pad2 ((roundHE (100 * q)).natAbs % 100)) =
      toDec ((roundHE (100 * q)).natAbs / 100) ++
        '.' :: pad2 ((roundHE (100 * q)).natAbs % 100) := by
    simp only [stripCommas, List.filter_append]
    have h1 := group3_strip (toDec ((roundHE (100 * q)).natAbs / 100))
      (fun hmem => ((toDec_chars _ ',' hmem).2.2.1 rfl))
    simp only [stripCommas] at h1
    rw [h1, List.filter_cons_of_pos (by decide),
      List.filter_eq_self.mpr
        (fun c hc => by simp [notComma, (pad2_chars _ c hc).2.2.1])]
  rw [hsplit, pyFloat?_render]
  have hcast : (((roundHE (100 * q)).natAbs : ℕ) : ℚ) = ((roundHE (100 * q) : ℤ) : ℚ) := by
    rw [Int.cast_natAbs, abs_of_nonneg (by exact_mod_cast hn)]
  rw [round2, ← hcast]

/-- A value `float()` accepts is nonnegative (no sign in the modelled
grammar). -/
theorem pyFloat?_nonneg (s : String) (q : ℚ) (h : pyFloat? s = some q) : 0 ≤ q := by
  simp only [pyFloat?] at h
  split_ifs at h
  rw [Option.some_inj] at h
  subst h
  positivity

/-- All values produced by a successful column-wide parse are
nonnegative. -/
theorem mapM_pyFloat_nonneg : ∀ (l : List String) (qs : List ℚ),
    l.mapM pyFloat? = some qs → ∀ q ∈ qs, 0 ≤ q := by
  intro l
  induction l with
  | nil =>
      intro qs h q hq
      simp only [List.mapM_nil, pure, Option.some_inj] at h
      subst h
      simp at hq
  | cons x xs ih =>
      intro qs h q hq
      rw [List.mapM_cons] at h
      cases hx : pyFloat? x with
      | none => rw [hx] at h; simp at h
      | some v =>
          rw [hx] at h
          cases hxs : xs.mapM pyFloat? with
          | none => rw [hxs] at h; simp at h
          | some vs =>
              rw [hxs] at h
              simp only [Option.bind_eq_bind, Option.some_bind, pure,
                Option.some_inj] at h
              subst h
              rcases List.mem_cons.mp hq with rfl | hq
              · exact pyFloat?_nonneg x q hx
              · exact ih vs hxs q hq

/-- Re-parsing the display strings of a nonnegative float column gives
the cent-rounded numeric column. -/
theorem reExport_nums (qs : List ℚ) (h : ∀ q ∈ qs, 0 ≤ q) :
    reExport (qs.map fmt2) = .nums (qs.map round2) := by
  have hmapm : ∀ (l : List ℚ), (∀ q ∈ l, 0 ≤ q) →
      (l.map (fun q => String.mk (stripCommas (fmt2 q).data))).mapM pyFloat? =
        some (l.map round2) := by
    intro l
    induction l with
    | nil => intro _; rfl
    | cons x xs ih =>
        intro hl
        simp only [List.map_cons, List.mapM_cons,
          fmt2_reparse x (hl x (List.mem_cons_self _ _)),
          ih (fun y hy => hl y (List.mem_cons_of_mem _ hy))]
        rfl
  simp only [reExport, List.map_map]
  rw [show ((fun s => String.mk (stripCommas s.data)) ∘ fmt2) =
      (fun q => String.mk (stripCommas (fmt2 q).data)) from rfl]
  rw [hmapm qs h]

/-- No character of a normalized column name is an upper-case letter
(so no normalized name can be one of the original USD / SGD column
names, which begin with `T`). -/
theorem normName_no_T (s : String) : ∀ c ∈ (normName s).data, c ≠ 'T' := by
  intro c hc
  have hc2 := List.mem_of_mem_filter hc
  obtain ⟨c1, hc1, rfl⟩ := List.mem_map.mp hc2
  obtain ⟨c0, _, rfl⟩ := List.mem_map.mp hc1
  by_cases h : lowerC c0 = ' '
  · simp only [h, if_pos rfl]
    decide
  · rw [if_neg h]
    revert h
    unfold lowerC
    split <;> first
      | decide
      | simp_all

/-- Normalization never reproduces the two export column names. -/
theorem normName_ne_export_cols (s : String) :
    normName s ≠ "Total Invoice Value(USD)" ∧
    normName s ≠ "Total Invoice Value(SGD)" := by
  constructor <;>
  · intro h
    have hT : 'T' ∈ (normName s).data := by
      rw [h]
      decide
    exact normName_no_T s 'T' hT rfl

/-- Full characterisation of the `pandas` block on a column whose
values all parse: displays are the two-decimal formatted strings; with
the normalization toggle off the exported USD / SGD columns are the
cent-rounded numbers re-parsed from those strings, and with the toggle
on the renamed columns are missed by the export re-coercion, which
leaves the formatted strings in place. -/
theorem buildOutputs_spec (usdRaw : List (Option String)) (qs : List ℚ)
    (rate : ℚ) (bc : List String) (hrate : 0 ≤ rate)
    (hparse : (usdRaw.map (fun v => String.mk (stripCommas (pyStr v).data))).mapM
      pyFloat? = some qs)
    (hbc : bc = maceCols ∨ bc = ncCols) :
    buildOutputs usdRaw rate false bc =
      .ok { colNames := bc ++ ["EX-RATE", "Total Invoice Value(SGD)"]
            usdDisplay := qs.map fmt2
            sgdDisplay := (qs.map (· * rate)).map fmt2
            exRate := rate
            usdExport := .nums (qs.map round2)
            sgdExport := .nums ((qs.map (· * rate)).map round2) } ∧
    buildOutputs usdRaw rate true bc =
      .ok { colNames := (bc ++ ["EX-RATE", "Total Invoice Value(SGD)"]).map normName
            usdDisplay := qs.map fmt2
            sgdDisplay := (qs.map (· * rate)).map fmt2
            exRate := rate
            usdExport := .strs (qs.map fmt2)
            sgdExport := .strs ((qs.map (· * rate)).map fmt2) } := by
  have hco : usdCoerce usdRaw = .nums qs := by
    simp only [usdCoerce]
    rw [hparse]
  have hnn : ∀ q ∈ qs, 0 ≤ q := mapM_pyFloat_nonneg _ _ hparse
  have hnnr : ∀ q ∈ qs.map (· * rate), 0 ≤ q := by
    intro q hq
    obtain ⟨x, hx, rfl⟩ := List.mem_map.mp hq
    exact mul_nonneg (hnn x hx) hrate
  have hmemUSD : "Total Invoice Value(USD)" ∈ bc ++ ["EX-RATE", "Total Invoice Value(SGD)"] := by
    rcases hbc with rfl | rfl <;> decide
  have hmemSGD : "Total Invoice Value(SGD)" ∈ bc ++ ["EX-RATE", "Total Invoice Value(SGD)"] := by
    rcases hbc with rfl | rfl <;> decide
  have hnUSD : "Total Invoice Value(USD)" ∉
      (bc ++ ["EX-RATE", "Total Invoice Value(SGD)"]).map normName := by
    intro hmem
    obtain ⟨x, _, hx⟩ := List.mem_map.mp hmem
    exact (normName_ne_export_cols x).1 hx
  have hnSGD : "Total Invoice Value(SGD)" ∉
      (bc ++ ["EX-RATE", "Total Invoice Value(SGD)"]).map normName := by
    intro hmem
    obtain ⟨x, _, hx⟩ := List.mem_map.mp hmem
    exact (normName_ne_export_cols x).2 hx
  constructor
  · simp only [buildOutputs, hco, seriesMulScalar, dispOf, Bool.false_eq_true,
      if_false]
    rw [if_pos hmemUSD, if_pos hmemSGD, reExport_nums qs hnn, reExport_nums _ hnnr]
  · simp only [buildOutputs, hco, seriesMulScalar, dispOf, if_true]
    rw [if_neg hnUSD, if_neg hnSGD]

/-- C2 (amended): for every batch whose monetary values all parse, the
exported USD and SGD values are the parsed values rounded to two
decimal places — the export re-parses the two-decimal display strings,
so sub-cent precision is lost — and with the column-name normalization
toggle on, the renamed USD / SGD columns are missed by the export
re-coercion and exported as formatted strings instead of numbers. -/
theorem export_rounds_to_cents (usdRaw : List (Option String)) (qs : List ℚ)
    (rate : ℚ) (bc : List String) (hrate : 0 ≤ rate)
    (hparse : (usdRaw.map (fun v => String.mk (stripCommas (pyStr v).data))).mapM
      pyFloat? = some qs)
    (hbc : bc = maceCols ∨ bc = ncCols) :
    (∃ r, buildOutputs usdRaw rate false bc = .ok r ∧
      r.usdExport = .nums (qs.map round2) ∧
      r.sgdExport = .nums ((qs.map (· * rate)).map round2) ∧
      r.usdDisplay = qs.map fmt2 ∧ r.sgdDisplay = (qs.map (· * rate)).map fmt2) ∧
    (∃ r, buildOutputs usdRaw rate true bc = .ok r ∧
      r.usdExport = .strs (qs.map fmt2) ∧
      r.sgdExport = .strs ((qs.map (· * rate)).map fmt2)) := by
  obtain ⟨h1, h2⟩ := buildOutputs_spec usdRaw qs rate bc hrate hparse hbc
  exact ⟨⟨_, h1, rfl, rfl, rfl, rfl⟩, ⟨_, h2, rfl, rfl⟩⟩

/-- Witness for C2 (amended): the claim's own example, a parsed total
of `2500.50` at exchange rate `1.35`. -/
theorem export_rounds_to_cents_witness :
    ((0 : ℚ) ≤ 27/20 ∧
     (([some "2,500.50"] : List (Option String)).map
        (fun v => String.mk (stripCommas (pyStr v).data))).mapM pyFloat? =
          some [(5001 : ℚ)/2] ∧
     (ncCols = maceCols ∨ ncCols = ncCols)) ∧
    (∃ r, buildOutputs [some "2,500.50"] (27/20) false ncCols = .ok r ∧
      r.usdExport = .nums ([(5001 : ℚ)/2].map round2) ∧
      r.sgdExport = .nums (([(5001 : ℚ)/2].map (· * (27/20))).map round2) ∧
      r.usdDisplay = [(5001 : ℚ)/2].map fmt2 ∧
      r.sgdDisplay = ([(5001 : ℚ)/2].map (· * (27/20))).map fmt2) ∧
    (∃ r, buildOutputs [some "2,500.50"] (27/20) true ncCols = .ok r ∧
      r.usdExport = .strs ([(5001 : ℚ)/2].map fmt2) ∧
      r.sgdExport = .strs (([(5001 : ℚ)/2].map (· * (27/20))).map fmt2)) := by
  have hv : pyFloat? "2500.50" = some ((5001 : ℚ)/2) := by
    show some (((250050 : ℕ) : ℚ) / ((100 : ℕ) : ℚ)) = some ((5001 : ℚ)/2)
    norm_num
  have hp : (([some "2,500.50"] : List (Option String)).map
      (fun v => String.mk (stripCommas (pyStr v).data))).mapM pyFloat? =
        some [(5001 : ℚ)/2] := by
    show (["2500.50"] : List String).mapM pyFloat? = some [(5001 : ℚ)/2]
    simp [List.mapM.loop, hv]
  obtain ⟨ha, hb⟩ := export_rounds_to_cents [some "2,500.50"] [(5001 : ℚ)/2]
    (27/20) ncCols (by norm_num) hp (Or.inr rfl)
  exact ⟨⟨by norm_num, hp, Or.inr rfl⟩, ha, hb⟩

/-- Half-to-even rounding of the claim's example product: `3375.675`
rounds to `337568` cents. -/
theorem roundHE_337568 : roundHE (100 * ((135027 : ℚ)/40)) = 337568 := by
  have hx : (100 : ℚ) * (135027/40) = 3375675/10 := by norm_num
  rw [hx]
  have hf : ⌊(3375675 : ℚ)/10⌋ = 337567 := by norm_num [Int.floor_eq_iff]
  simp only [roundHE, hf]
  split_ifs with h1 h2 h3
  · norm_num at h1
  · norm_num at h2
  · norm_num at h3
  · norm_num

/-- C2 (counterexample): with the claim's own inputs — a parsed total
of `2500.50` and exchange rate `1.35` — the exported local total is not
the unformatted product `3375.675` (the export re-parses the
two-decimal display string), and with the normalization toggle on the
exported SGD column is not numeric at all. -/
theorem export_not_exact_float_cex :
    (∃ r, buildOutputs [some "2,500.50"] (27/20) false ncCols = .ok r ∧
       r.sgdExport ≠ NumCol.nums [(3375675 : ℚ)/1000]) ∧
    (∃ r, buildOutputs [some "2,500.50"] (27/20) true ncCols = .ok r ∧
       r.sgdExport.isNums = false) := by
  have hv : pyFloat? "2500.50" = some ((5001 : ℚ)/2) := by
    show some (((250050 : ℕ) : ℚ) / ((100 : ℕ) : ℚ)) = some ((5001 : ℚ)/2)
    norm_num
  have hp : (([some "2,500.50"] : List (Option String)).map
      (fun v => String.mk (stripCommas (pyStr v).data))).mapM pyFloat? =
        some [(5001 : ℚ)/2] := by
    show (["2500.50"] : List String).mapM pyFloat? = some [(5001 : ℚ)/2]
    simp [List.mapM.loop, hv]
  obtain ⟨h1, h2⟩ := buildOutputs_spec [some "2,500.50"] [(5001 : ℚ)/2]
    (27/20) ncCols (by norm_num) hp (Or.inr rfl)
  constructor
  · refine ⟨_, h1, ?_⟩
    dsimp only
    intro hcontra
    simp only [List.map_cons, List.map_nil, NumCol.nums.injEq, List.cons.injEq,
      and_true] at hcontra
    rw [show (5001 : ℚ)/2 * (27/20) = 135027/40 by norm_num, round2,
      roundHE_337568] at hcontra
    norm_num at hcontra
  · exact ⟨_, h2, rfl⟩

/-! ## C5: a numeric parse failure crashes the whole run -/

/-- C5: a Novanta batch in which one record's monetary field fails to
parse (`None`, because the invoice has no matched total) makes the
entire run raise: `astype(float, errors="ignore")` leaves the whole USD
column as strings (all-or-nothing), and the subsequent
`df[usd_col] * ex_rate` raises `TypeError`, uncaught — even though the
other record's total parses fine.  The claim says this situation is
non-fatal; the code crashes the batch. -/
theorem unparsed_total_crashes_run :
    runProcess ncUsd extract_novanta
      [⟨"a.pdf", .ok (.ok [.ok (some "Invoice ID: 7 TOTAL USD: 100.00")])⟩,
       ⟨"b.pdf", .ok (.ok [.ok (some "Invoice No: 123")])⟩] 2 false ncCols =
    .done
      [{ invoice_date := none, invoice_no := some "7",
         sciex_po := none, total_usd := some "100.00" },
       { invoice_date := none, invoice_no := some "123",
         sciex_po := none, total_usd := none }]
      [.ok "a.pdf" 1, .ok "b.pdf" 1] []
      (some (.error "TypeError: cannot multiply sequence by non-int of type float")) := by
  rfl

/-! ## C7: generic engine-step lemmas -/

/-- A greedy quantifier commits to its maximal repetition count when
the continuation succeeds there. -/
theorem manyG_commit {p : Char → Bool} {lo : Nat} {hi : Option Nat}
    {s : List Char} {caps : Caps} {k : List Char → Caps → Option (Caps × List Char)}
    {res : Caps × List Char} (m : Nat)
    (hm : capRun p hi s = m) (hlo : lo ≤ m)
    (hk : k (s.drop m) caps = some res) :
    mrun (.manyG p lo hi) s caps k = some res := by
  simp only [mrun, hm, greedyLens]
  rw [show m + 1 - lo = (m - lo) + 1 from by omega, List.range_succ_eq_map,
    List.map_cons]
  simp only [firstSome, Nat.sub_zero, hk]

/-- A greedy quantifier fails when even the maximal repetition count is
below the required minimum. -/
theorem manyG_fail {p : Char → Bool} {lo : Nat} {hi : Option Nat}
    {s : List Char} {caps : Caps} {k : List Char → Caps → Option (Caps × List Char)}
    (h : capRun p hi s < lo) :
    mrun (.manyG p lo hi) s caps k = none := by
  simp only [mrun, greedyLens]
  rw [show capRun p hi s + 1 - lo = 0 from by omega]
  rfl

/-- A lazy quantifier commits to the first repetition count at which
the continuation succeeds. -/
theorem manyL_commit {p : Char → Bool} {lo : Nat} {hi : Option Nat}
    {s : List Char} {caps : Caps} {k : List Char → Caps → Option (Caps × List Char)}
    {res : Caps × List Char} (g : Nat)
    (hg : lo ≤ g) (hgm : g ≤ capRun p hi s)
    (hfail : ∀ i, lo ≤ i → i < g → k (s.drop i) caps = none)
    (hk : k (s.drop g) caps = some res) :
    mrun (.manyL p lo hi) s caps k = some res := by
  simp only [mrun, lazyLens]
  have aux : ∀ (d lo' : ℕ), lo' + d = g →
      (∀ i, lo' ≤ i → i < g → k (s.drop i) caps = none) →
      firstSome (fun i => k (s.drop i) caps)
        ((List.range (capRun p hi s + 1 - lo')).map (fun j => lo' + j)) = some res := by
    intro d
    induction d with
    | zero =>
        intro lo' hd _
        have hlg : lo' = g := by omega
        subst hlg
        rw [show capRun p hi s + 1 - lo' = (capRun p hi s - lo') + 1 from by omega,
          List.range_succ_eq_map, List.map_cons]
        simp only [firstSome, Nat.add_zero]
        rw [hk]
    | succ d ih =>
        intro lo' hd hfail'
        rw [show capRun p hi s + 1 - lo' = (capRun p hi s - lo') + 1 from by omega,
          List.range_succ_eq_map, List.map_cons]
        simp only [firstSome, Nat.add_zero]
        rw [hfail' lo' le_rfl (by omega)]
        rw [List.map_map]
        have hcomp : ((fun j => lo' + j) ∘ Nat.succ) = (fun j => (lo' + 1) + j) := by
          funext j
          simp only [Function.comp_apply]
          omega
        rw [hcomp, show capRun p hi s - lo' = capRun p hi s + 1 - (lo' + 1) from by omega]
        exact ih (lo' + 1) (by omega) (fun i h1 h2 => hfail' i (by omega) h2)
  exact aux (g - lo) lo (by omega) hfail

/-- The maximal run over a satisfying prefix followed by a failing (or
absent) head. -/
theorem countRun_all_front {p : Char → Bool} (a t : List Char)
    (ha : a.all p = true) (ht : headNot p t) :
    countRun p (a ++ t) = a.length := by
  induction a with
  | nil =>
      cases t with
      | nil => rfl
      | cons c u => simp [countRun, ht c rfl]
  | cons c cs ih =>
      rw [List.all_cons, Bool.and_eq_true] at ha
      simp [countRun, ha.1, ih ha.2]

/-- Unbounded repetition of `.` can reach any position of the input. -/
theorem countRun_true (s : List Char) :
    countRun (fun _ => true) s = s.length := by
  induction s with
  | nil => rfl
  | cons c cs ih => simp [countRun, ih]

/-- A greedy quantifier over a class eats exactly a maximal satisfying
prefix. -/
theorem manyG_exact {p : Char → Bool} {lo : Nat} {hi : Option Nat}
    {caps : Caps} {k : List Char → Caps → Option (Caps × List Char)}
    {res : Caps × List Char} (a t : List Char)
    (ha : a.all p = true) (ht : headNot p t) (hlo : lo ≤ a.length)
    (hhi : match hi with | none => True | some h => a.length ≤ h)
    (hk : k t caps = some res) :
    mrun (.manyG p lo hi) (a ++ t) caps k = some res := by
  refine manyG_commit a.length ?_ hlo ?_
  · unfold capRun
    cases hi with
    | none => exact countRun_all_front a t ha ht
    | some h0 =>
        rw [countRun_all_front a t ha ht]
        simp only at hhi
        simp only [min_eq_left hhi]
  · rw [List.drop_left]
    exact hk

/-- A run of case-insensitive literals eats exactly a matching prefix. -/
theorem strI_run : ∀ (w u t : List Char) (caps : Caps)
    (k : List Char → Caps → Option (Caps × List Char)),
    eqIL w u = true → mrun (strI w) (u ++ t) caps k = k t caps := by
  intro w
  induction w with
  | nil =>
      intro u t caps k h
      cases u with
      | nil => rfl
      | cons c cs => simp [eqIL] at h
  | cons a as ih =>
      intro u t caps k h
      cases u with
      | nil => simp [eqIL] at h
      | cons c cs =>
          simp only [eqIL, Bool.and_eq_true] at h
          simp only [strI, List.foldr_cons, List.cons_append, mrun, litI, h.1,
            if_true]
          exact ih cs t caps k h.2

/-- Sequencing is associative for the matcher (the continuations are
definitionally equal). -/
theorem mrun_seq_assoc {a b c : RE} {s : List Char} {caps : Caps}
    {k : List Char → Caps → Option (Caps × List Char)} :
    mrun (.seq (.seq a b) c) s caps k = mrun (.seq a (.seq b c)) s caps k := rfl

/-- Unfolding a cons of a literal word matcher. -/
theorem strI_cons (a : Char) (w : List Char) :
    strI (a :: w) = .seq (litI a) (strI w) := rfl

/-- A sequence fails when its first part fails for every continuation. -/
theorem mrun_seq_none {a b : RE} {s : List Char} {caps : Caps}
    {k : List Char → Caps → Option (Caps × List Char)}
    (h : ∀ k', mrun a s caps k' = none) : mrun (.seq a b) s caps k = none := by
  show mrun a s caps (fun s' c' => mrun b s' c' k) = none
  exact h _

/-- A group fails when its body fails for every continuation. -/
theorem mrun_grp_none {n : Nat} {r : RE} {s : List Char} {caps : Caps}
    {k : List Char → Caps → Option (Caps × List Char)}
    (h : ∀ k', mrun r s caps k' = none) : mrun (.grp n r) s caps k = none := by
  show mrun r s caps (fun s' c' =>
    k s' ((n, s.take (s.length - s'.length)) :: c')) = none
  exact h _

/-- An alternation fails when both branches fail. -/
theorem mrun_alt_none {A B : RE} {s : List Char} {caps : Caps}
    {k : List Char → Caps → Option (Caps × List Char)}
    (ha : mrun A s caps k = none) (hb : mrun B s caps k = none) :
    mrun (.alt A B) s caps k = none := by
  show (match mrun A s caps k with
    | some r => some r
    | none => mrun B s caps k) = none
  rw [ha]
  exact hb

/-- A sequence headed by an optional group fails when the group's body
fails outright and the rest fails from the same position. -/
theorem optG_seq_none {D R2 : RE} {s : List Char} {caps : Caps}
    {k : List Char → Caps → Option (Caps × List Char)}
    (h1 : ∀ k', mrun D s caps k' = none)
    (h2 : mrun R2 s caps k = none) :
    mrun (.seq (optG D) R2) s caps k = none := by
  show (match mrun D s caps (fun s' c' => mrun R2 s' c' k) with
    | some r => some r
    | none => mrun R2 s caps k) = none
  rw [h1]
  exact h2

/-- A character class fails when the head (or end of input) falsifies
it. -/
theorem cls_head_fail {p : Char → Bool} {s : List Char} {caps : Caps}
    {k : List Char → Caps → Option (Caps × List Char)}
    (h : headNot p s) : mrun (.cls p) s caps k = none := by
  cases s with
  | nil => rfl
  | cons c u => simp [mrun, h c rfl]

/-- The continuation entered after the first `.*?` — the date group —
fails wherever the input does not start with a digit. -/
theorem dateCont_fail {Y X : RE} {s : List Char} {caps : Caps}
    {k : List Char → Caps → Option (Caps × List Char)}
    (h : headNot isDigitC s) :
    mrun (.seq (.grp 2 (.seq (.manyG isDigitC 1 (some 2)) Y)) X) s caps k = none := by
  have hc : capRun isDigitC (some 2) s = 0 := by
    cases s with
    | nil => rfl
    | cons c u => simp [capRun, countRun, h c rfl]
  apply mrun_seq_none
  intro k1
  apply mrun_grp_none
  intro k2
  apply mrun_seq_none
  intro k3
  exact manyG_fail (by rw [hc]; norm_num)

/-- The continuation entered after the second `.*?` — the optional
`DDU Singapore` prefix followed by the reference-PO digits — fails
wherever the input starts with neither a `d`/`D` nor a digit. -/
theorem dduCont_fail {Y X : RE} {n : Nat} {s : List Char} {caps : Caps}
    {k : List Char → Caps → Option (Caps × List Char)}
    (hd : headNot (eqI 'd') s) (hdig : headNot isDigitC s) :
    mrun (.seq (optG (.seq (litI 'd') Y)) (.seq (.grp n digPlus) X)) s caps k = none := by
  have hdig0 : capRun isDigitC none s = 0 := by
    cases s with
    | nil => rfl
    | cons c u => simp [capRun, countRun, hdig c rfl]
  apply optG_seq_none
  · intro k1
    apply mrun_seq_none
    intro k2
    exact cls_head_fail hd
  · apply mrun_seq_none
    intro k1
    apply mrun_grp_none
    intro k2
    exact manyG_fail (by rw [hdig0]; norm_num)

/-- The continuation entered after the third `.*?` — the optional total
label or dollar sign followed by the amount characters — fails wherever
the input starts with no `t`/`T`, no `$` and no amount character. -/
theorem totCont_fail {Y : RE} {s : List Char} {caps : Caps}
    {k : List Char → Caps → Option (Caps × List Char)}
    (ht : headNot (eqI 't') s) (hdol : headNot (fun c => c = '$') s)
    (hamt : headNot isAmtC s) :
    mrun (.seq (optG (.alt (.seq (strI "total".data) Y) (.cls (fun c => c = '$'))))
      (.grp 4 (.manyG isAmtC 1 none))) s caps k = none := by
  have hamt0 : capRun isAmtC none s = 0 := by
    cases s with
    | nil => rfl
    | cons c u => simp [capRun, countRun, hamt c rfl]
  apply optG_seq_none
  · intro k1
    apply mrun_alt_none
    · rw [show ("total".data) = 't' :: "otal".data from rfl, strI_cons, mrun_seq_assoc]
      apply mrun_seq_none
      intro k2
      exact cls_head_fail ht
    · exact cls_head_fail hdol
  · apply mrun_grp_none
    intro k1
    exact manyG_fail (by rw [hamt0]; norm_num)

/-- Facts about an unrelated-filler character. -/
theorem gapOk_facts {c : Char} (h : gapOk c = true) :
    isDigitC c = false ∧ isAmtC c = false ∧ eqI 'p' c = false ∧
    eqI 'd' c = false ∧ eqI 't' c = false ∧
    (fun x : Char => decide (x = '$')) c = false := by
  have h' : isDigitC c = false ∧ c ≠ ',' ∧ c ≠ '.' ∧ c ≠ '$' ∧
      eqI 'p' c = false ∧ eqI 'd' c = false ∧ eqI 't' c = false := by
    simpa [gapOk, and_assoc] using h
  obtain ⟨h1, h2, h3, h4, h5, h6, h7⟩ := h'
  refine ⟨h1, ?_, h5, h6, h7, by simp [h4]⟩
  simp [isAmtC, h1, h2, h3]

/-- A digit is not whitespace. -/
theorem digit_not_ws {c : Char} (h : isDigitC c = true) : isWsC c = false := by
  by_contra hc
  rw [Bool.not_eq_false] at hc
  simp only [isWsC, decide_eq_true_eq] at hc
  rcases hc with rfl | rfl | rfl | rfl | rfl | rfl <;> simp [isDigitC] at h

/-- An amount character is not whitespace. -/
theorem amt_not_ws {c : Char} (h : isAmtC c = true) : isWsC c = false := by
  simp only [isAmtC, Bool.or_eq_true, decide_eq_true_eq] at h
  rcases h with h | rfl | rfl
  · exact digit_not_ws h
  · rfl
  · rfl

/-- Sequencing through a matching literal character. -/
theorem litI_seq {a : Char} {rr : RE} {c : Char} {t : List Char} {caps : Caps}
    {k : List Char → Caps → Option (Caps × List Char)} {res : Caps × List Char}
    (hc : eqI a c = true) (hrest : mrun rr t caps k = some res) :
    mrun (.seq (litI a) rr) (c :: t) caps k = some res := by
  show mrun (litI a) (c :: t) caps (fun s' c' => mrun rr s' c' k) = some res
  simp only [litI, mrun, hc, if_true]
  exact hrest

/-- Sequencing through a greedy class quantifier that eats a maximal
prefix. -/
theorem manyG_seq {p : Char → Bool} {lo : Nat} {hi : Option Nat} {rr : RE}
    {caps : Caps} {k : List Char → Caps → Option (Caps × List Char)}
    {res : Caps × List Char} (a t : List Char)
    (ha : a.all p = true) (ht : headNot p t) (hlo : lo ≤ a.length)
    (hhi : match hi with | none => True | some h => a.length ≤ h)
    (hrest : mrun rr t caps k = some res) :
    mrun (.seq (.manyG p lo hi) rr) (a ++ t) caps k = some res := by
  show mrun (.manyG p lo hi) (a ++ t) caps (fun s' c' => mrun rr s' c' k) = some res
  exact manyG_exact a t ha ht hlo hhi hrest

/-- Sequencing through a matching case-insensitive literal word. -/
theorem strI_seq {w : List Char} {rr : RE} {caps : Caps}
    {k : List Char → Caps → Option (Caps × List Char)} {res : Caps × List Char}
    (u t : List Char) (hw : eqIL w u = true)
    (hrest : mrun rr t caps k = some res) :
    mrun (.seq (strI w) rr) (u ++ t) caps k = some res := by
  show mrun (strI w) (u ++ t) caps (fun s' c' => mrun rr s' c' k) = some res
  rw [strI_run w u t caps _ hw]
  exact hrest

/-- Sequencing into the left branch of an alternation. -/
theorem altL_seq {A B rr : RE} {s : List Char} {caps : Caps}
    {k : List Char → Caps → Option (Caps × List Char)} {res : Caps × List Char}
    (h : mrun (.seq A rr) s caps k = some res) :
    mrun (.seq (.alt A B) rr) s caps k = some res := by
  show (match mrun A s caps (fun s' c' => mrun rr s' c' k) with
    | some r => some r
    | none => mrun B s caps (fun s' c' => mrun rr s' c' k)) = some res
  rw [show mrun A s caps (fun s' c' => mrun rr s' c' k) = some res from h]

/-- Sequencing through a captured greedy class quantifier records the
eaten prefix as the group's text. -/
theorem grpManyG_seq {n : Nat} {p : Char → Bool} {lo : Nat} {hi : Option Nat}
    {rr : RE} {caps : Caps} {k : List Char → Caps → Option (Caps × List Char)}
    {res : Caps × List Char} (a t : List Char)
    (ha : a.all p = true) (ht : headNot p t) (hlo : lo ≤ a.length)
    (hhi : match hi with | none => True | some h => a.length ≤ h)
    (hrest : mrun rr t ((n, a) :: caps) k = some res) :
    mrun (.seq (.grp n (.manyG p lo hi)) rr) (a ++ t) caps k = some res := by
  have htake : (a ++ t).take ((a ++ t).length - t.length) = a := by
    rw [List.length_append, show a.length + t.length - t.length = a.length from by omega,
      List.take_left]
  show mrun (.manyG p lo hi) (a ++ t) caps
    (fun s' c' => mrun rr s'
      ((n, (a ++ t).take ((a ++ t).length - s'.length)) :: c') k) = some res
  refine manyG_exact a t ha ht hlo hhi ?_
  show mrun rr t ((n, (a ++ t).take ((a ++ t).length - t.length)) :: caps) k = some res
  rw [htake]
  exact hrest

/-- The final captured amount group closes the match and returns the
remaining input. -/
theorem grpManyG_last {n : Nat} {p : Char → Bool} {lo : Nat} {hi : Option Nat}
    {caps : Caps} (a t : List Char)
    (ha : a.all p = true) (ht : headNot p t) (hlo : lo ≤ a.length)
    (hhi : match hi with | none => True | some h => a.length ≤ h) :
    mrun (.grp n (.manyG p lo hi)) (a ++ t) caps (fun s' caps' => some (caps', s')) =
      some ((n, a) :: caps, t) := by
  have htake : (a ++ t).take ((a ++ t).length - t.length) = a := by
    rw [List.length_append, show a.length + t.length - t.length = a.length from by omega,
      List.take_left]
  show mrun (.manyG p lo hi) (a ++ t) caps
    (fun s' c' => some (((n, (a ++ t).take ((a ++ t).length - s'.length)) :: c'), s')) =
      some ((n, a) :: caps, t)
  refine manyG_exact a t ha ht hlo hhi ?_
  show some (((n, (a ++ t).take ((a ++ t).length - t.length)) :: caps), t) =
    some ((n, a) :: caps, t)
  rw [htake]

/-- Sequencing through a lazy `.*?` that skips exactly the gap, given
that the continuation fails at every position inside the gap. -/
theorem dotStar_seq {rr : RE} {caps : Caps}
    {k : List Char → Caps → Option (Caps × List Char)} {res : Caps × List Char}
    (gap t : List Char)
    (hfail : ∀ i, i < gap.length → mrun rr (gap.drop i ++ t) caps k = none)
    (hrest : mrun rr t caps k = some res) :
    mrun (.seq dotStarL rr) (gap ++ t) caps k = some res := by
  show mrun dotStarL (gap ++ t) caps (fun s' c' => mrun rr s' c' k) = some res
  refine manyL_commit gap.length (Nat.zero_le _) ?_ ?_ ?_
  · rw [show capRun (fun _ => true) none (gap ++ t) = (gap ++ t).length from
      countRun_true _]
    simp
  · intro i _ hi
    show mrun rr ((gap ++ t).drop i) caps k = none
    rw [List.drop_append_of_le_length (by omega)]
    exact hfail i hi
  · show mrun rr ((gap ++ t).drop gap.length) caps k = some res
    rw [List.drop_left]
    exact hrest

/-- Optional groups commit to their content when the content matches
(the `?` quantifier is greedy). -/
theorem optG_take {r rr : RE} {s : List Char} {caps : Caps}
    {k : List Char → Caps → Option (Caps × List Char)} {res : Caps × List Char}
    (h : mrun (.seq r rr) s caps k = some res) :
    mrun (.seq (optG r) rr) s caps k = some res := altL_seq h

/-- Head-falsity for a cons cell. -/
theorem headNot_cons {p : Char → Bool} {c0 : Char} {t : List Char}
    (h : p c0 = false) : headNot p (c0 :: t) := by
  intro d hd
  simp only [List.head?_cons, Option.some_inj] at hd
  rw [← hd]
  exact h

/-- Head-falsity across a nonempty block of `q`-characters. -/
theorem headNot_of_ne_all {p q : Char → Bool} {l X : List Char}
    (hne : l ≠ []) (hall : l.all q = true)
    (himp : ∀ c, q c = true → p c = false) : headNot p (l ++ X) := by
  cases l with
  | nil => exact absurd rfl hne
  | cons c u =>
      rw [List.all_cons, Bool.and_eq_true] at hall
      exact headNot_cons (himp c hall.1)

/-- Head-falsity across a possibly-empty block of `q`-characters. -/
theorem headNot_of_all_imp {p q : Char → Bool} {l X : List Char}
    (hall : l.all q = true) (himp : ∀ c, q c = true → p c = false)
    (hX : headNot p X) : headNot p (l ++ X) := by
  cases l with
  | nil => exact hX
  | cons c u =>
      rw [List.all_cons, Bool.and_eq_true] at hall
      exact headNot_cons (himp c hall.1)

/-- Inside a gap, every position starts with an unrelated character. -/
theorem gap_pos_head {g : List Char} {i : Nat} (hg : g.all gapOk = true)
    (hi : i < g.length) : ∃ c u, g.drop i = c :: u ∧ gapOk c = true := by
  cases hd : g.drop i with
  | nil =>
      exfalso
      have := List.length_drop i g
      rw [hd] at this
      simp at this
      omega
  | cons c u =>
      refine ⟨c, u, rfl, ?_⟩
      have hcmem : c ∈ g := List.drop_subset _ _ (by
        rw [hd]
        exact List.mem_cons_self _ _)
      exact List.all_eq_true.mp hg c hcmem

/-- A digit is not a colon or dash. -/
theorem digit_not_colonDash {c : Char} (h : isDigitC c = true) :
    isColonDashC c = false := by
  by_contra hc
  rw [Bool.not_eq_false] at hc
  simp only [isColonDashC, Bool.or_eq_true, decide_eq_true_eq] at hc
  rcases hc with rfl | rfl <;> simp [isDigitC] at h

/-- A letter is not whitespace. -/
theorem alpha_not_ws {c : Char} (h : isAlphaC c = true) : isWsC c = false := by
  by_contra hc
  rw [Bool.not_eq_false] at hc
  simp only [isWsC, decide_eq_true_eq] at hc
  rcases hc with rfl | rfl | rfl | rfl | rfl | rfl <;> simp [isAlphaC] at h

/-- Walking the whole date group: it eats `day mon year` and captures
it as group 2. -/
theorem grpDate_seq {rr : RE} {caps : Caps}
    {k : List Char → Caps → Option (Caps × List Char)} {res : Caps × List Char}
    (day mon year t : List Char)
    (hdayne : day ≠ []) (hday2 : day.length ≤ 2) (hdayD : day.all isDigitC = true)
    (hmon3 : 3 ≤ mon.length) (hmon9 : mon.length ≤ 9) (hmonA : mon.all isAlphaC = true)
    (hyear4 : year.length = 4) (hyearD : year.all isDigitC = true)
    (ht : headNot isDigitC t)
    (hrest : mrun rr t ((2, day ++ ' ' :: mon ++ ' ' :: year) :: caps) k = some res) :
    mrun (.seq (.grp 2 (.seq (.manyG isDigitC 1 (some 2)) (.seq wsPlus
        (.seq (.manyG isAlphaC 3 (some 9)) (.seq wsPlus (.manyG isDigitC 4 (some 4)))))))
      rr) (day ++ (' ' :: (mon ++ (' ' :: (year ++ t))))) caps k = some res := by
  have hmonne : mon ≠ [] := by
    intro h
    rw [h] at hmon3
    simp at hmon3
  have hyearne : year ≠ [] := by
    intro h
    rw [h] at hyear4
    simp at hyear4
  have htake : (day ++ (' ' :: (mon ++ (' ' :: (year ++ t))))).take
      ((day ++ (' ' :: (mon ++ (' ' :: (year ++ t))))).length - t.length) =
      day ++ ' ' :: mon ++ ' ' :: year := by
    rw [show day ++ (' ' :: (mon ++ (' ' :: (year ++ t)))) =
        (day ++ ' ' :: mon ++ ' ' :: year) ++ t from by simp]
    rw [List.length_append,
      show (day ++ ' ' :: mon ++ ' ' :: year).length + t.length - t.length =
        (day ++ ' ' :: mon ++ ' ' :: year).length from by omega,
      List.take_left]
  show mrun (.seq (.manyG isDigitC 1 (some 2)) (.seq wsPlus
      (.seq (.manyG isAlphaC 3 (some 9)) (.seq wsPlus (.manyG isDigitC 4 (some 4))))))
    (day ++ (' ' :: (mon ++ (' ' :: (year ++ t))))) caps
    (fun s' c' => mrun rr s'
      ((2, (day ++ (' ' :: (mon ++ (' ' :: (year ++ t))))).take
        ((day ++ (' ' :: (mon ++ (' ' :: (year ++ t))))).length - s'.length)) :: c') k) =
    some res
  refine manyG_seq day (' ' :: (mon ++ (' ' :: (year ++ t)))) hdayD
    (headNot_cons (by decide)) (by
      cases day with
      | nil => exact absurd rfl hdayne
      | cons c u => simp) (by simpa using hday2) ?_
  refine manyG_seq [' '] (mon ++ (' ' :: (year ++ t))) (by decide)
    (headNot_of_ne_all hmonne hmonA (fun c hc => alpha_not_ws hc)) (by simp) (by trivial) ?_
  refine manyG_seq mon (' ' :: (year ++ t)) hmonA
    (headNot_cons (by decide)) hmon3 (by simpa using hmon9) ?_
  refine manyG_seq [' '] (year ++ t) (by decide)
    (headNot_of_ne_all hyearne hyearD (fun c hc => digit_not_ws hc)) (by simp) (by trivial) ?_
  show mrun (.manyG isDigitC 4 (some 4)) (year ++ t) caps _ = some res
  refine manyG_exact year t hyearD ht (by omega) (by simp [hyear4]) ?_
  show mrun rr t
    ((2, (day ++ (' ' :: (mon ++ (' ' :: (year ++ t))))).take
      ((day ++ (' ' :: (mon ++ (' ' :: (year ++ t))))).length - t.length)) :: caps) k =
    some res
  rw [htake]
  exact hrest

set_option maxRecDepth 4000 in
/-- A well-formed block followed by non-amount text matches the Mace
pattern at its start, capturing the four fields and stopping exactly at
the end of the amount. -/
theorem mace_block_match (b : MaceBlock) (hwf : blockWf b) (rest : List Char)
    (hrestAmt : headNot isAmtC rest) :
    matchAt maceRE (blockText b ++ rest) = some (blockCaps b, rest) := by
  obtain ⟨hpone, hpoD, hdayne, hday2, hdayD, hmon3, hmon9, hmonA, hyear4, hyearD,
    hrefne, hrefD, htotne, htotA, hg1ne, hg1G, hg2G, hg3G⟩ := hwf
  have hshape : blockText b ++ rest =
      'P' :: '.' :: 'O' :: '.' :: ' ' :: 'N' :: 'O' :: '.' :: ' ' ::
        (b.po ++ (b.g1 ++ (b.day ++ (' ' :: (b.mon ++ (' ' :: (b.year ++ (b.g2 ++
          ('D' :: 'D' :: 'U' :: ' ' :: 'S' :: 'i' :: 'n' :: 'g' :: 'a' :: 'p' ::
            'o' :: 'r' :: 'e' :: ' ' ::
            (b.ref ++ (b.g3 ++
              ('T' :: 'O' :: 'T' :: 'A' :: 'L' :: ' ' :: 'U' :: 'S' :: 'D' ::
                ':' :: ' ' :: (b.total ++ rest))))))))))))) := by
    simp only [blockText,
      show ("P.O. NO. ".data) = ['P', '.', 'O', '.', ' ', 'N', 'O', '.', ' '] from rfl,
      show ("DDU Singapore ".data) =
        ['D', 'D', 'U', ' ', 'S', 'i', 'n', 'g', 'a', 'p', 'o', 'r', 'e', ' '] from rfl,
      show ("TOTAL USD: ".data) =
        ['T', 'O', 'T', 'A', 'L', ' ', 'U', 'S', 'D', ':', ' '] from rfl]
    simp [List.append_assoc]
  rw [matchAt, hshape]
  simp only [maceRE, sepOpt]
  refine litI_seq (by decide) ?_
  refine manyG_seq ['.'] _ (by decide) (headNot_cons (by decide)) (by decide)
    (by decide) ?_
  refine litI_seq (by decide) ?_
  refine manyG_seq ['.'] _ (by decide) (headNot_cons (by decide)) (by decide)
    (by decide) ?_
  refine manyG_seq [' '] _ (by decide) (headNot_cons (by decide)) (by decide)
    (by trivial) ?_
  refine litI_seq (by decide) ?_
  refine litI_seq (by decide) ?_
  refine manyG_seq ['.'] _ (by decide) (headNot_cons (by decide)) (by decide)
    (by decide) ?_
  rw [mrun_seq_assoc]
  refine manyG_seq [' '] _ (by decide)
    (headNot_of_ne_all hpone hpoD (fun c hc => digit_not_ws hc)) (by decide)
    (by trivial) ?_
  rw [mrun_seq_assoc]
  refine manyG_seq [] _ (by decide)
    (headNot_of_ne_all hpone hpoD (fun c hc => digit_not_colonDash hc)) (by decide)
    (by decide) ?_
  refine manyG_seq [] _ (by decide)
    (headNot_of_ne_all hpone hpoD (fun c hc => digit_not_ws hc)) (by decide)
    (by trivial) ?_
  refine grpManyG_seq b.po _ hpoD
    (headNot_of_ne_all hg1ne hg1G (fun c hc => (gapOk_facts hc).1))
    (List.length_pos.mpr hpone) (by trivial) ?_
  refine dotStar_seq b.g1 _ ?_ ?_
  · intro i hi
    obtain ⟨c, u, hdu, hcg⟩ := gap_pos_head hg1G hi
    rw [hdu, List.cons_append]
    exact dateCont_fail (headNot_cons (gapOk_facts hcg).1)
  refine grpDate_seq b.day b.mon b.year _ hdayne hday2 hdayD hmon3 hmon9 hmonA
    hyear4 hyearD
    (headNot_of_all_imp hg2G (fun c hc => (gapOk_facts hc).1)
      (headNot_cons (by decide))) ?_
  refine dotStar_seq b.g2 _ ?_ ?_
  · intro i hi
    obtain ⟨c, u, hdu, hcg⟩ := gap_pos_head hg2G hi
    rw [hdu, List.cons_append]
    exact dduCont_fail (headNot_cons (gapOk_facts hcg).2.2.2.1)
      (headNot_cons (gapOk_facts hcg).1)
  refine optG_take ?_
  rw [mrun_seq_assoc]
  refine litI_seq (by decide) ?_
  rw [mrun_seq_assoc]
  refine litI_seq (by decide) ?_
  rw [mrun_seq_assoc]
  refine litI_seq (by decide) ?_
  rw [mrun_seq_assoc]
  refine manyG_seq [' '] _ (by decide) (headNot_cons (by decide)) (by decide)
    (by trivial) ?_
  rw [mrun_seq_assoc]
  refine strI_seq (['S', 'i', 'n', 'g', 'a', 'p', 'o', 'r', 'e']) _ (by decide) ?_
  refine manyG_seq [' '] _ (by decide)
    (headNot_of_ne_all hrefne hrefD (fun c hc => digit_not_ws hc)) (by decide)
    (by trivial) ?_
  refine grpManyG_seq b.ref _ hrefD
    (headNot_of_all_imp hg3G (fun c hc => (gapOk_facts hc).1)
      (headNot_cons (by decide)))
    (List.length_pos.mpr hrefne) (by trivial) ?_
  refine dotStar_seq b.g3 _ ?_ ?_
  · intro i hi
    obtain ⟨c, u, hdu, hcg⟩ := gap_pos_head hg3G hi
    rw [hdu, List.cons_append]
    exact totCont_fail (headNot_cons (gapOk_facts hcg).2.2.2.2.1)
      (headNot_cons (gapOk_facts hcg).2.2.2.2.2)
      (headNot_cons (gapOk_facts hcg).2.1)
  refine optG_take ?_
  refine altL_seq ?_
  rw [mrun_seq_assoc]
  refine strI_seq (['T', 'O', 'T', 'A', 'L']) _ (by decide) ?_
  rw [mrun_seq_assoc]
  refine manyG_seq [' '] _ (by decide) (headNot_cons (by decide)) (by decide)
    (by trivial) ?_
  rw [mrun_seq_assoc]
  refine strI_seq (['U', 'S', 'D']) _ (by decide) ?_
  rw [mrun_seq_assoc]
  refine manyG_seq [] _ (by decide) (headNot_cons (by decide)) (by decide)
    (by trivial) ?_
  rw [mrun_seq_assoc]
  refine manyG_seq [':'] _ (by decide) (headNot_cons (by decide)) (by decide)
    (by decide) ?_
  refine manyG_seq [' '] _ (by decide)
    (headNot_of_ne_all htotne htotA (fun c hc => amt_not_ws hc)) (by decide)
    (by trivial) ?_
  exact grpManyG_last b.total rest htotA hrestAmt (List.length_pos.mpr htotne)
    (by trivial)

/-- The Mace pattern cannot match at a character that is not a `P`. -/
theorem maceRE_head_fail {c : Char} {t : List Char} (h : eqI 'p' c = false) :
    matchAt maceRE (c :: t) = none := by
  rw [matchAt]
  simp only [maceRE]
  apply mrun_seq_none
  intro k1
  exact cls_head_fail (headNot_cons h)

/-- The Mace pattern cannot match the empty input. -/
theorem maceRE_nil_fail : matchAt maceRE [] = none := by
  rw [matchAt]
  simp only [maceRE]
  apply mrun_seq_none
  intro k1
  exact cls_head_fail (fun c hc => by simp at hc)

/-- Scanning the empty input yields no matches. -/
theorem searchAll_mace_nil : searchAll maceRE [] = [] := by
  simp [searchAll, searchAllF, maceRE_nil_fail]

/-- The scan skips over any prefix of unrelated characters. -/
theorem searchAll_skip : ∀ (g : List Char), g.all gapOk = true →
    ∀ t, searchAll maceRE (g ++ t) = searchAll maceRE t := by
  intro g
  induction g with
  | nil => intro _ t; rfl
  | cons c u ih =>
      intro hg t
      rw [List.all_cons, Bool.and_eq_true] at hg
      rw [List.cons_append,
        searchAll_cons_none (maceRE_head_fail (gapOk_facts hg.1).2.2.1)]
      exact ih hg.2 t

/-- A list of unrelated characters starts (if at all) with a character
falsifying any predicate they all falsify. -/
theorem headNot_gaps {p : Char → Bool} {l : List Char} (hl : l.all gapOk = true)
    (himp : ∀ c, gapOk c = true → p c = false) : headNot p l := by
  cases l with
  | nil => intro c hc; simp at hc
  | cons c u =>
      rw [List.all_cons, Bool.and_eq_true] at hl
      exact headNot_cons (himp c hl.1)

/-- An assembled document never starts with an amount character: it
starts either with a separator character or with the anchor's `P`. -/
theorem asm_headNot_amt (items : List (List Char × MaceBlock)) (tail : List Char)
    (hsep : ∀ sb ∈ items, sb.1.all gapOk = true) (htail : tail.all gapOk = true) :
    headNot isAmtC (asm items tail) := by
  cases items with
  | nil => exact headNot_gaps htail (fun c hc => (gapOk_facts hc).2.1)
  | cons sb rest =>
      obtain ⟨sep, b⟩ := sb
      show headNot isAmtC (sep ++ (blockText b ++ asm rest tail))
      cases sep with
      | nil => exact headNot_cons (show isAmtC 'P' = false by decide)
      | cons c u =>
          have hc := hsep (c :: u, b) (List.mem_cons_self _ _)
          rw [List.all_cons, Bool.and_eq_true] at hc
          exact headNot_cons ((gapOk_facts hc.1).2.1)

/-- Unfolding `searchAll` at a match on any nonempty input. -/
theorem searchAll_match_some {re : RE} {s s' : List Char} {caps : Caps}
    (h : matchAt re s = some (caps, s')) (hne : s ≠ [])
    (hlt : s'.length < s.length) :
    searchAll re s = caps :: searchAll re s' := by
  cases s with
  | nil => exact absurd rfl hne
  | cons c rest => exact searchAll_cons_some h hlt

/-- A block's text is nonempty (it contains the anchor). -/
theorem blockText_length_pos (b : MaceBlock) : 0 < (blockText b).length := by
  simp [blockText]

/-- Scanning an assembled document recovers exactly the capture lists
of its blocks, in order. -/
theorem searchAll_asm : ∀ (items : List (List Char × MaceBlock)) (tail : List Char),
    (∀ sb ∈ items, sb.1.all gapOk = true) → (∀ sb ∈ items, blockWf sb.2) →
    tail.all gapOk = true →
    searchAll maceRE (asm items tail) = items.map (fun sb => blockCaps sb.2) := by
  intro items
  induction items with
  | nil =>
      intro tail _ _ htail
      show searchAll maceRE tail = []
      rw [show tail = tail ++ [] from by simp, searchAll_skip tail htail []]
      exact searchAll_mace_nil
  | cons sb rest ih =>
      intro tail hsep hwf htail
      obtain ⟨sep, b⟩ := sb
      show searchAll maceRE (sep ++ (blockText b ++ asm rest tail)) = _
      rw [searchAll_skip sep (hsep (sep, b) (List.mem_cons_self _ _)) _]
      have hA : headNot isAmtC (asm rest tail) :=
        asm_headNot_amt rest tail (fun x hx => hsep x (List.mem_cons_of_mem _ hx))
          htail
      have hm := mace_block_match b (hwf (sep, b) (List.mem_cons_self _ _)) _ hA
      have hbp := blockText_length_pos b
      rw [searchAll_match_some hm
        (by
          intro hh
          have hlen := congrArg List.length hh
          rw [List.length_append, List.length_nil] at hlen
          omega)
        (by rw [List.length_append]; omega)]
      rw [ih tail (fun x hx => hsep x (List.mem_cons_of_mem _ hx))
        (fun x hx => hwf x (List.mem_cons_of_mem _ hx)) htail]
      rfl

/-- Stripping is the identity when both ends are non-whitespace. -/
theorem pyStrip_ends {l : List Char} (hh : headNot isWsC l)
    (hl : ∀ c, l.getLast? = some c → isWsC c = false) : pyStrip l = l := by
  unfold pyStrip
  have h1 : l.dropWhile isWsC = l := by
    cases l with
    | nil => rfl
    | cons c cs => rw [List.dropWhile_cons_of_neg (by simp [hh c rfl])]
  rw [h1]
  cases hr : l.reverse with
  | nil =>
      have h0 : l = [] := List.reverse_eq_nil_iff.mp hr
      rw [h0]
      rfl
  | cons c cs =>
      have hcl : l.getLast? = some c := by
        rw [← List.head?_reverse, hr]
        rfl
      rw [List.dropWhile_cons_of_neg (by simp [hl c hcl]), ← hr,
        List.reverse_reverse]

/-- The last element of an append with a nonempty right part. -/
theorem getLast?_append_of_ne_nil {l1 l2 : List Char} (h : l2 ≠ []) :
    (l1 ++ l2).getLast? = l2.getLast? := by
  rw [List.getLast?_append]
  cases hy : l2.getLast? with
  | some d => rfl
  | none => exact absurd (List.getLast?_eq_none_iff.mp hy) h

/-- Filtering a mapped list is again a map when every image passes the
filter. -/
theorem filter_map_of_forall {α β : Type} (l : List α) (f g : α → β) (q : β → Bool)
    (h : ∀ x ∈ l, f x = g x ∧ q (g x) = true) :
    (l.map f).filter q = l.map g := by
  induction l with
  | nil => rfl
  | cons a u ih =>
      have ha := h a (List.mem_cons_self _ _)
      rw [List.map_cons, List.filter_cons_of_pos (by rw [ha.1]; exact ha.2), ha.1,
        List.map_cons, ih (fun x hx => h x (List.mem_cons_of_mem _ hx))]

/-- A well-formed block's captures, stripped and packed, are exactly
its record, and that record survives the truthiness filter. -/
theorem block_row_strip (b : MaceBlock) (hwf : blockWf b) :
    ({ invoice_date := stripS (String.mk (capGet (blockCaps b) 2))
       po_no := stripS (String.mk (capGet (blockCaps b) 1))
       sciex_po := stripS (String.mk (capGet (blockCaps b) 3))
       total_usd := stripS (String.mk (capGet (blockCaps b) 4)) } : MaceRow) =
      blockRow b ∧ maceAny (blockRow b) = true := by
  obtain ⟨hpone, hpoD, hdayne, hday2, hdayD, hmon3, hmon9, hmonA, hyear4, hyearD,
    hrefne, hrefD, htotne, htotA, _, _, _, _⟩ := hwf
  have hpo : stripS (String.mk b.po) = String.mk b.po := by
    show String.mk (pyStrip b.po) = _
    rw [pyStrip_eq_self b.po
      (fun c hc => digit_not_ws (List.all_eq_true.mp hpoD c hc))]
  have href : stripS (String.mk b.ref) = String.mk b.ref := by
    show String.mk (pyStrip b.ref) = _
    rw [pyStrip_eq_self b.ref
      (fun c hc => digit_not_ws (List.all_eq_true.mp hrefD c hc))]
  have htot : stripS (String.mk b.total) = String.mk b.total := by
    show String.mk (pyStrip b.total) = _
    rw [pyStrip_eq_self b.total
      (fun c hc => amt_not_ws (List.all_eq_true.mp htotA c hc))]
  have hyne : b.year ≠ [] := by
    intro h0
    rw [h0] at hyear4
    simp at hyear4
  have hdate : stripS (String.mk (dateChars b)) = String.mk (dateChars b) := by
    show String.mk (pyStrip (dateChars b)) = _
    rw [pyStrip_ends ?_ ?_]
    · rw [show dateChars b = b.day ++ ((' ' :: b.mon) ++ (' ' :: b.year)) from
        by simp [dateChars]]
      exact headNot_of_ne_all hdayne hdayD (fun c hc => digit_not_ws hc)
    · intro c hc
      have h1 : (dateChars b).getLast? = b.year.getLast? := by
        rw [show dateChars b = (b.day ++ ' ' :: b.mon ++ [' ']) ++ b.year from
          by simp [dateChars]]
        exact getLast?_append_of_ne_nil hyne
      rw [h1] at hc
      have hcmem : c ∈ b.year := by
        have hrev : b.year.reverse.head? = some c := by
          rw [List.head?_reverse]
          exact hc
        cases hr : b.year.reverse with
        | nil => rw [hr] at hrev; simp at hrev
        | cons d u =>
            rw [hr] at hrev
            simp at hrev
            have hd : d ∈ b.year.reverse := by
              rw [hr]
              exact List.mem_cons_self _ _
            rw [List.mem_reverse] at hd
            rwa [hrev] at hd
      exact digit_not_ws (List.all_eq_true.mp hyearD c hcmem)
  constructor
  · show ({ invoice_date := stripS (String.mk (dateChars b))
            po_no := stripS (String.mk b.po)
            sciex_po := stripS (String.mk b.ref)
            total_usd := stripS (String.mk b.total) } : MaceRow) = blockRow b
    rw [hpo, href, htot, hdate]
    rfl
  · have hne : String.mk b.po ≠ "" := by
      intro h0
      apply hpone
      have := congrArg String.data h0
      simpa using this
    simp only [maceAny, blockRow]
    rw [decide_eq_true_eq]
    exact Or.inl hne

/-- C7: for the Mace multi-record extractor, a text made of k
well-formed invoice blocks (PO number, date, reference PO, total)
separated by unrelated content yields exactly k records, in document
order, each record's fields taken from its own block. -/
theorem mace_k_blocks (items : List (List Char × MaceBlock)) (tail : List Char)
    (hsep : ∀ sb ∈ items, sb.1.all gapOk = true)
    (hwf : ∀ sb ∈ items, blockWf sb.2)
    (htail : tail.all gapOk = true) :
    extract_mace_multi (String.mk (asm items tail)) =
      items.map (fun sb => blockRow sb.2) := by
  unfold extract_mace_multi findall4
  rw [show (String.mk (asm items tail)).data = asm items tail from rfl,
    searchAll_asm items tail hsep hwf htail, List.map_map, List.map_map]
  exact filter_map_of_forall items _ _ maceAny
    (fun sb hsb => block_row_strip sb.2 (hwf sb hsb))

set_option maxRecDepth 8000 in
/-- Witness for C7: the concrete two-block document of the
specification produces exactly its two records. -/
theorem mace_k_blocks_witness :
    String.mk (asm w7items []) =
      "P.O. NO. 1001 x 05 Jan 2024 DDU Singapore 9001 TOTAL USD: 1,000.00 -- some memo -- P.O. NO. 1002 x 10 Feb 2024 DDU Singapore 9002 TOTAL USD: 2,500.50" ∧
    extract_mace_multi (String.mk (asm w7items [])) =
      [{ invoice_date := "05 Jan 2024", po_no := "1001", sciex_po := "9001",
         total_usd := "1,000.00" },
       { invoice_date := "10 Feb 2024", po_no := "1002", sciex_po := "9002",
         total_usd := "2,500.50" }] := by
  refine ⟨by decide, ?_⟩
  rw [mace_k_blocks w7items [] (by decide)
    (by
      intro sb hsb
      simp only [w7items, List.mem_cons, List.not_mem_nil, or_false] at hsb
      rcases hsb with rfl | rfl <;> (unfold blockWf; decide))
    (by decide)]
  rfl

end App
